import Mathlib

/-! Functional.js: a shallow embedding of `src/fn.js`.

JavaScript functions are embedded as state-passing computations: a call takes the
current world and gives back an outcome (a value, or a thrown exception) together
with the world it leaves behind.  The world is kept on the exceptional path too,
since side effects performed before a `throw` persist in JavaScript.

The type `V` of data values, the type `E` of thrown values and the type `σ` of worlds
are parameters throughout: the combinators of the library never inspect them.
-/

namespace FunctionalJs

/-! ## Values, exceptions and computations -/

/-- Thrown values: a `TypeError` (raised by the library or by the host), or any other
thrown value. -/
inductive JsError (E : Type) where
  | typeError (msg : String)
  | thrown (e : E)
  deriving DecidableEq, Repr

/-- A computation over worlds of type `σ`: an outcome and the world left behind. -/
abbrev Eff (σ E α : Type) := σ → Except (JsError E) α × σ

/-- Normal completion with a value. -/
def effPure {σ E α : Type} (a : α) : Eff σ E α :=
  fun s => (Except.ok a, s)

/-- Abrupt completion: `throw e`. -/
def effThrow {σ E α : Type} (e : JsError E) : Eff σ E α :=
  fun s => (Except.error e, s)

/-- Sequencing: run `m`; on normal completion continue with `k`, on a throw stop. -/
def effBind {σ E α β : Type} (m : Eff σ E α) (k : α → Eff σ E β) : Eff σ E β :=
  fun s =>
    match m s with
    | (Except.ok a, s1) => k a s1
    | (Except.error e, s1) => (Except.error e, s1)

/-- A JavaScript function value: its declared arity (`fn.length`) and what a call
`fn(...args)` does. -/
structure JsFn (σ E V : Type) where
  length : Nat
  call : List V → Eff σ E V

/-- A value handed to a combinator: either a function or some other datum. -/
inductive JsVal (σ E V : Type) where
  | fn (f : JsFn σ E V)
  | data (v : V)

/-- The test `typeof x === 'function'`. -/
def isFunction {σ E V : Type} : JsVal σ E V → Bool
  | JsVal.fn _ => true
  | JsVal.data _ => false

/-- The call expression `x(...args)`: calling something that is not a function throws
a `TypeError`. -/
def callVal {σ E V : Type} : JsVal σ E V → List V → Eff σ E V
  | JsVal.fn f, args => f.call args
  | JsVal.data _, _ => effThrow (JsError.typeError "is not a function")

/-- A recording wrapper in the manner of `jest.fn`: behaves as `f` on the first
component of the world and appends the argument list of every invocation to the
second component (`mock.calls`). -/
def spy {σ E V : Type} (f : JsFn σ E V) : JsFn (σ × List (List V)) E V where
  length := f.length
  call := fun args w => ((f.call args w.1).1, ((f.call args w.1).2, w.2 ++ [args]))

/-! ## Array helpers -/

/-- The method `Array.prototype.reduce(cb, init)`: a left fold whose callback may throw. -/
def reduceInit {σ E α β : Type} (cb : β → α → Eff σ E β) : List α → β → Eff σ E β
  | [], acc => effPure acc
  | x :: xs, acc => effBind (cb acc x) (reduceInit cb xs)

/-- The method `Array.prototype.reduce(cb)` without an initial value: the first element
seeds the fold, and an empty array throws a `TypeError`. -/
def reduceNoInit {σ E α : Type} (cb : α → α → Eff σ E α) : List α → Eff σ E α
  | [] => effThrow (JsError.typeError "Reduce of empty array with no initial value")
  | x :: xs => reduceInit cb xs x

/-! ## pipe and compose (fn.js, lines 38-53 and 75-77) -/

/-- The validation loop of `pipe`:
`fnArr.forEach(fn => { if (typeof fn !== 'function') throw new TypeError(...) })`. -/
def validate {σ E V : Type} : List (JsVal σ E V) → Eff σ E Unit
  | [] => effPure ()
  | x :: rest =>
    if isFunction x then validate rest
    else effThrow (JsError.typeError "Invalid function")

/-- The reducer of `pipe`: `(curArgs, fn) => [fn(...curArgs)]`. -/
def pipeStep {σ E V : Type} (curArgs : List V) (fn : JsVal σ E V) : Eff σ E (List V) :=
  effBind (callVal fn curArgs) (fun v => effPure [v])

/-- The function returned by `pipe`:
`(...args) => fnArr.reduce(pipeStep, args).reduce(item => item)`. -/
def pipeCall {σ E V : Type} (fnArr : List (JsVal σ E V)) (args : List V) : Eff σ E V :=
  effBind (reduceInit pipeStep fnArr args)
    (reduceNoInit (fun item _ => effPure item))

/-- The function `pipe(...fnArr)`: validate every element, then return the piping
function (a rest-parameter function, hence of declared arity 0). -/
def pipe {σ E V : Type} (fnArr : List (JsVal σ E V)) : Eff σ E (JsFn σ E V) :=
  effBind (validate fnArr) (fun _ => effPure { length := 0, call := pipeCall fnArr })

/-- The function `compose(...fnArr)`: `pipe(...fnArr.reverse())`. -/
def compose {σ E V : Type} (fnArr : List (JsVal σ E V)) : Eff σ E (JsFn σ E V) :=
  pipe fnArr.reverse

/-- The specification side of piping: thread one value through the functions `gs`
from left to right, each receiving exactly the single result of the one before. -/
def thread {σ E V : Type} : List (JsFn σ E V) → V → Eff σ E V
  | [], v => effPure v
  | g :: gs, v => effBind (g.call [v]) (thread gs)

/-- The specification side of piping: `fn(...f2(f1(...args))...)`; the first function
receives the whole argument list, the others are threaded. -/
def nestedCalls {σ E V : Type} (f : JsFn σ E V) (rest : List (JsFn σ E V))
    (args : List V) : Eff σ E V :=
  effBind (f.call args) (thread rest)

/-! ## curry (fn.js, lines 8-33) -/

/-- What a call of a curried function returns: the value produced by the target
function, or a new callable holding the grown argument list. -/
inductive Curried (V : Type) where
  | value (v : V)
  | callable (storedArgs : List V)
  deriving DecidableEq, Repr

/-- The comparison `args.length >= RequiredNumOfArgs`; the default `Infinity` is
`none` and is never reached. -/
def reachesRequired (len : Nat) : Option Nat → Bool
  | none => false
  | some r => decide (r ≤ len)

/-- The function `_argStorage(storedArgs)`: it returns the closure `_curry` over
`storedArgs`, here the callable holding them. -/
abbrev _argStorage {V : Type} (storedArgs : List V) : Curried V :=
  Curried.callable storedArgs

/-- The closure `_curry` returned by `_argStorage(storedArgs)`, called with `newArgs`. -/
def _curry {σ E V : Type} (fn : JsFn σ E V) (RequiredNumOfArgs : Option Nat)
    (storedArgs newArgs : List V) : Eff σ E (Curried V) :=
  let args := storedArgs ++ newArgs
  if fn.length ≤ args.length ∨ reachesRequired args.length RequiredNumOfArgs = true then
    effBind (fn.call args) (fun v => effPure (Curried.value v))
  else
    effPure (_argStorage args)

/-- The function `curry(fn, RequiredNumOfArgs)`: a `TypeError` unless `fn` is a function,
otherwise `_argStorage([])`. -/
def curry {σ E V : Type} (fn : JsVal σ E V) (_RequiredNumOfArgs : Option Nat) :
    Eff σ E (Curried V) :=
  if isFunction fn then effPure (_argStorage [])
  else effThrow (JsError.typeError "curry requires a function")

/-- A chain of calls `c(...c1)(...c2)...` on a curried callable holding `storedArgs`.
The chain is followed up to the call that makes the target function run; the calls
after it (which would be applied to the value the target returned) are handed back. -/
def callChain {σ E V : Type} (fn : JsFn σ E V) (RequiredNumOfArgs : Option Nat) :
    List V → List (List V) → Eff σ E (Curried V × List (List V))
  | storedArgs, [] => effPure (Curried.callable storedArgs, [])
  | storedArgs, c :: cs =>
    effBind (_curry fn RequiredNumOfArgs storedArgs c) (fun res =>
      match res with
      | Curried.value v => effPure (Curried.value v, cs)
      | Curried.callable grown => callChain fn RequiredNumOfArgs grown cs)

/-! ## memorizer (fn.js, lines 60-73) -/

/-- The `Map` used as cache: string keys, entries in insertion order. -/
abbrev Cache (V : Type) := List (String × V)

/-- The method `Map.prototype.get`; `none` stands for the `undefined` of a missing key. -/
def Cache.get {V : Type} (cache : Cache V) (key : String) : Option V :=
  match cache with
  | [] => none
  | (k, v) :: rest => if k = key then some v else Cache.get rest key

/-- The method `Map.prototype.has`. -/
def Cache.has {V : Type} (cache : Cache V) (key : String) : Bool :=
  (Cache.get cache key).isSome

/-- The method `Map.prototype.set`: overwrite the entry of an existing key in place,
append a new one otherwise. -/
def Cache.set {V : Type} (cache : Cache V) (key : String) (value : V) : Cache V :=
  match cache with
  | [] => [(key, value)]
  | (k, v) :: rest =>
    if k = key then (k, value) :: rest else (k, v) :: Cache.set rest key value

/-- The closure `_memorizer` of `memorizer(fn)`.  Its world is the cache of the
instance paired with the world of `fn`; `stringify` is `JSON.stringify` on argument
lists, a collaborator supplied by the host, taken to return a string on every argument
list.  The wrapped `fn` acts on its own world only: it does not call the instance
back while it runs. -/
def _memorizer {σ E V : Type} (stringify : List V → String) (fn : JsFn σ E V)
    (args : List V) : Eff (Cache V × σ) E (Option V) :=
  fun w =>
    let key := stringify args
    if Cache.has w.1 key = false then
      match fn.call args w.2 with
      | (Except.ok result, s1) =>
        (Except.ok (Cache.get (Cache.set w.1 key result) key), (Cache.set w.1 key result, s1))
      | (Except.error e, s1) => (Except.error e, (w.1, s1))
    else
      (Except.ok (Cache.get w.1 key), w)

/-- The constructor call `new Map()`: the empty map. -/
def newMap {V : Type} : Cache V := []

/-- The function `memorizer(fn)`: `const cache = new Map()`, and the closure `_memorizer`
is returned.  Nothing is called; the fresh instance is its empty cache. -/
def memorizer {V : Type} : Cache V := newMap

/-- A sequence of calls made one after the other on the same instance; the outcome of
every call is recorded, and a call that throws does not stop the later ones. -/
def callAll {W E V R : Type} (f : List V → Eff W E R) :
    List (List V) → W → List (Except (JsError E) R) × W
  | [], w => ([], w)
  | args :: rest, w =>
    (((f args w).1 :: (callAll f rest (f args w).2).1), (callAll f rest (f args w).2).2)

/-- The argument lists of `calls` whose key occurs there for the first time, in order. -/
def firstOfKey {V : Type} (stringify : List V → String) :
    List String → List (List V) → List (List V)
  | _, [] => []
  | seen, args :: rest =>
    if stringify args ∈ seen then firstOfKey stringify seen rest
    else args :: firstOfKey stringify (stringify args :: seen) rest

/-! ## partial (fn.js, lines 81-85) -/

/-- The closure `applied` of `partial(fn, ...firstArgs)`, called with `lastArgs`. -/
def applied {σ E V : Type} (fn : JsVal σ E V) (firstArgs lastArgs : List V) : Eff σ E V :=
  callVal fn (firstArgs ++ lastArgs)

/-- The function `partial(fn, ...firstArgs)` (`partial` is reserved in Lean): no
validation, no call; the closure `applied` is returned. -/
def partialFn {σ E V : Type} (fn : JsVal σ E V) (firstArgs : List V) :
    Eff σ E (JsFn σ E V) :=
  effPure { length := 0, call := applied fn firstArgs }

/-! ## Timers of the host

`setTimeout` and `clearTimeout` are collaborators supplied by the host.  They are
modelled as a discrete-event timer queue over a clock counting milliseconds: a timer
armed at time `t` with delay `d` is due at `t + d` and fires when the clock reaches its
due time, earlier due times first and, among equal due times, in the order of arming.
The callback of a timer is kept as the data `P` its closure has captured. -/

/-- An armed timer: its handle, its due time and what its callback has captured. -/
structure Timer (P : Type) where
  id : Nat
  due : Nat
  payload : P

/-- The timer facility of the host: the clock, the next handle to hand out and the
armed timers in the order of arming. -/
structure Host (P : Type) where
  now : Nat
  nextId : Nat
  pending : List (Timer P)

/-- The host function `setTimeout(callback, delay)`: arm a timer and return its handle. -/
def setTimeout {P : Type} (h : Host P) (payload : P) (delay : Nat) : Nat × Host P :=
  (h.nextId,
   { now := h.now, nextId := h.nextId + 1,
     pending := h.pending ++ [{ id := h.nextId, due := h.now + delay, payload := payload }] })

/-- The host function `clearTimeout(handle)`: disarm the timer with that handle, if it
is still armed; `none` is the handle `null`. -/
def clearTimeout {P : Type} (h : Host P) : Option Nat → Host P
  | none => h
  | some id =>
    { now := h.now, nextId := h.nextId,
      pending := h.pending.filter (fun t => decide (t.id ≠ id)) }

/-- Truthiness of a timer variable, the test `if (timer)`: `null` and the number 0 are
falsy. -/
def truthy : Option Nat → Bool
  | none => false
  | some id => decide (id ≠ 0)

/-- Insert a timer into a list ordered by due time, after the timers due no later. -/
def insertByDue {P : Type} (t : Timer P) : List (Timer P) → List (Timer P)
  | [] => [t]
  | u :: rest => if u.due ≤ t.due then u :: insertByDue t rest else t :: u :: rest

/-- The timers that fire when the clock moves on to `limit`, in firing order. -/
def dueBy {P : Type} (limit : Nat) (pending : List (Timer P)) : List (Timer P) :=
  (pending.filter (fun t => decide (t.due ≤ limit))).foldl (fun acc t => insertByDue t acc) []

/-! ## debounce (fn.js, lines 114-130) -/

/-- The state of one `debounce(fn, timeToWait)` instance: the timers of the host (each
holding the `args` captured by its callback), the closure variable `timer`, and the
world of `fn`.  The wrapped `fn` acts on its own world only: it neither calls the
instance back nor touches the timers. -/
structure Debounce (σ V : Type) where
  host : Host (List V)
  timer : Option Nat
  world : σ

/-- The function `debounce(fn, timeToWait)`: `let timer = null`. -/
def debounce {σ V : Type} (host : Host (List V)) (world : σ) : Debounce σ V :=
  { host := host, timer := none, world := world }

/-- The function `executer(...args)` of debounce: clear the timer held in `timer` if
that variable is truthy, then arm a new one and store its handle. -/
def Debounce.executer {σ V : Type} (timeToWait : Nat) (args : List V)
    (d : Debounce σ V) : Debounce σ V :=
  let host1 := if truthy d.timer = true then clearTimeout d.host d.timer else d.host
  { host := (setTimeout host1 args timeToWait).2,
    timer := some (setTimeout host1 args timeToWait).1,
    world := d.world }

/-- The function `executer.cancel`: `clearTimeout(timer)`. -/
def Debounce.cancel {σ V : Type} (d : Debounce σ V) : Debounce σ V :=
  { host := clearTimeout d.host d.timer, timer := d.timer, world := d.world }

/-- The callback armed by `executer`: `fn(...args); timer = null`.  When `fn` throws,
the assignment is not reached (the exception goes to the host uncaught). -/
def Debounce.fire {σ E V : Type} (fn : JsFn σ E V) (d : Debounce σ V)
    (t : Timer (List V)) : Debounce σ V :=
  match fn.call t.payload d.world with
  | (Except.ok _, w) => { host := d.host, timer := none, world := w }
  | (Except.error _, w) => { host := d.host, timer := d.timer, world := w }

/-- Let `dt` milliseconds pass: the timers due by then fire in order and leave the
queue, and the clock moves on. -/
def Debounce.elapse {σ E V : Type} (fn : JsFn σ E V) (dt : Nat)
    (d : Debounce σ V) : Debounce σ V :=
  (dueBy (d.host.now + dt) d.host.pending).foldl (Debounce.fire fn)
    { host :=
        { now := d.host.now + dt, nextId := d.host.nextId,
          pending := d.host.pending.filter (fun t => decide (¬ t.due ≤ d.host.now + dt)) },
      timer := d.timer, world := d.world }

/-- What can happen to an instance: a call, a cancellation, or time passing. -/
inductive Event (V : Type) where
  | call (args : List V)
  | cancel
  | elapse (dt : Nat)

/-- One event on a debounce instance. -/
def Debounce.step {σ E V : Type} (fn : JsFn σ E V) (timeToWait : Nat)
    (d : Debounce σ V) : Event V → Debounce σ V
  | Event.call args => Debounce.executer timeToWait args d
  | Event.cancel => Debounce.cancel d
  | Event.elapse dt => Debounce.elapse fn dt d

/-- A sequence of events on a debounce instance. -/
def Debounce.run {σ E V : Type} (fn : JsFn σ E V) (timeToWait : Nat)
    (d : Debounce σ V) (events : List (Event V)) : Debounce σ V :=
  events.foldl (Debounce.step fn timeToWait) d

/-- A burst of calls: every call of `earlier` is followed by a pause (its second
component) before the next call; `last` is the final call of the burst. -/
def burst {V : Type} (earlier : List (List V × Nat)) (last : List V) : List (Event V) :=
  earlier.flatMap (fun c => [Event.call c.1, Event.elapse c.2]) ++ [Event.call last]

/-- The timer facility as an instance finds it when it is created: the clock shows
`now`, `issued` handles have been handed out so far, and none of the timers of the
instance is armed.  Handles are the positive integers in the order of issue, as the HTML
standard has it, so the next one is `issued + 1`. -/
def Host.start {P : Type} (now issued : Nat) : Host P :=
  { now := now, nextId := issued + 1, pending := [] }

/-- At most one timer of the instance is armed, and the variable `timer` holds its
handle, a non-zero one; handles to come are non-zero as well. -/
def Debounce.AtMostOne {σ V : Type} (d : Debounce σ V) : Prop :=
  0 < d.host.nextId
    ∧ (d.host.pending = []
      ∨ ∃ t, d.host.pending = [t] ∧ d.timer = some t.id ∧ t.id ≠ 0)

/-! ## Values for the worked examples -/

/-- Numbers as far as the examples need them: integers, `NaN`, and `undefined` for a
missing argument. -/
inductive TestVal where
  | num (n : Int)
  | nan
  | undefined
  deriving DecidableEq, Repr

/-- The operator `+` on these values: anything but two numbers gives `NaN`. -/
def TestVal.add : TestVal → TestVal → TestVal
  | TestVal.num a, TestVal.num b => TestVal.num (a + b)
  | _, _ => TestVal.nan

/-- The operator `*` on these values. -/
def TestVal.mul : TestVal → TestVal → TestVal
  | TestVal.num a, TestVal.num b => TestVal.num (a * b)
  | _, _ => TestVal.nan

/-- The i-th parameter of a call: `undefined` when fewer arguments were passed. -/
def param (args : List TestVal) (i : Nat) : TestVal :=
  args.getD i TestVal.undefined

/-- A function without side effects that never throws, of the given declared arity. -/
def pureFn {σ E V : Type} (arity : Nat) (body : List V → V) : JsFn σ E V where
  length := arity
  call := fun args => effPure (body args)

/-- The function `(a, b) => a + b`. -/
def add2 {σ E : Type} : JsFn σ E TestVal :=
  pureFn 2 (fun args => (param args 0).add (param args 1))

/-- The function `(a, b, c, d) => a + b + c + d`. -/
def sumFour {σ E : Type} : JsFn σ E TestVal :=
  pureFn 4 (fun args => (((param args 0).add (param args 1)).add (param args 2)).add (param args 3))

/-- The serialisation `JSON.stringify` on lists of these values; `NaN` and `undefined`
are written `null` inside an array. -/
def jsonArgs (args : List TestVal) : String :=
  "[" ++ ",".intercalate (args.map (fun v =>
    match v with
    | TestVal.num n => toString n
    | _ => "null")) ++ "]"

/-! ## reverse (fn.js, lines 107-113) -/

/-- The argument of `reverse` as its tests see it: an array, a string, or anything else. -/
inductive Sequence (V : Type) where
  | array (xs : List V)
  | string (s : String)
  | other (v : V)
  deriving DecidableEq, Repr

/-- The spread `[...str]` of a string: its characters, each as a one-character string. -/
def spread (s : String) : List String :=
  s.data.map String.singleton

/-- The method `Array.prototype.join()` on strings, with its default separator `,`. -/
def join (parts : List String) : String :=
  ",".intercalate parts

/-- The function `reverse(arr)`: `arr.reverse()` for an array,
`[...arr].reverse().join()` for a string, a `TypeError` otherwise. -/
def reverse {σ E V : Type} : Sequence V → Eff σ E (Sequence V)
  | Sequence.array xs => effPure (Sequence.array xs.reverse)
  | Sequence.string s => effPure (Sequence.string (join (spread s).reverse))
  | Sequence.other _ => effThrow (JsError.typeError "reverse only works on arrays and strings")

/-- The plain reversal of a string: its characters in reverse order, nothing between. -/
def plainReversal (s : String) : String :=
  String.mk s.data.reverse

/-! ## Maybe (fn.js, lines 174-196) -/

/-- A value as a container holds it: `undefined`, `null`, or any other value. -/
inductive Held (V : Type) where
  | undefined
  | null
  | val (v : V)
  deriving DecidableEq, Repr

/-- The test `x == undefined`: loose equality holds for `undefined` and `null` only. -/
def looseUndefined {V : Type} : Held V → Bool
  | Held.undefined => true
  | Held.null => true
  | Held.val _ => false

/-- The class `Maybe`: one field `_value`, set by the constructor. -/
structure Maybe (V : Type) where
  _value : Held V
  deriving DecidableEq, Repr

/-- The static method `Maybe.of(value)`: `new Maybe(value)`. -/
def Maybe.of {V : Type} (value : Held V) : Maybe V :=
  { _value := value }

/-- The method `map(fn)`: a `Maybe` of `null` when the held value is loosely equal to
`undefined`, otherwise a `Maybe` of `fn(this._value)`.  The receiver is a value of the
embedding and is not changed. -/
def Maybe.map {σ E V : Type} (self : Maybe V) (fn : JsVal σ E (Held V)) :
    Eff σ E (Maybe V) :=
  if looseUndefined self._value = true then effPure (Maybe.of Held.null)
  else effBind (callVal fn [self._value]) (fun r => effPure (Maybe.of r))

/-- The method `join()`: the held value. -/
def Maybe.join {V : Type} (self : Maybe V) : Held V :=
  self._value

/-- The method `chain(fn)`: `this.map(fn).join()`. -/
def Maybe.chain {σ E V : Type} (self : Maybe V) (fn : JsVal σ E (Held V)) :
    Eff σ E (Held V) :=
  effBind (Maybe.map self fn) (fun m => effPure (Maybe.join m))

/-- The arrow function `x => g(f(x))`: only its first parameter is used, and it is
`undefined` when no argument is passed. -/
def composed {σ E V : Type} (f g : JsFn σ E (Held V)) : JsFn σ E (Held V) where
  length := 1
  call := fun args => effBind (f.call [args.getD 0 Held.undefined]) (fun y => g.call [y])

/-- The coercion of a held example value to a number: `null` is 0, `undefined` is `NaN`. -/
def toNumber : Held TestVal → TestVal
  | Held.undefined => TestVal.nan
  | Held.null => TestVal.num 0
  | Held.val v => v

/-- The function `x => x + 2` on held example values. -/
def plusTwo {σ E : Type} : JsFn σ E (Held TestVal) :=
  pureFn 1 (fun args =>
    Held.val ((toNumber (args.getD 0 Held.undefined)).add (TestVal.num 2)))

/-- The function `x => x * 2` on held example values. -/
def timesTwo {σ E : Type} : JsFn σ E (Held TestVal) :=
  pureFn 1 (fun args =>
    Held.val ((toNumber (args.getD 0 Held.undefined)).mul (TestVal.num 2)))

/-- The function `x => null`. -/
def alwaysNull {σ E : Type} : JsFn σ E (Held TestVal) :=
  pureFn 1 (fun _ => Held.null)

/-- The function `x => 5`. -/
def alwaysFive {σ E : Type} : JsFn σ E (Held TestVal) :=
  pureFn 1 (fun _ => Held.val (TestVal.num 5))

/-- The function `() => { throw e }`: every call throws. -/
def alwaysThrows {σ V : Type} : JsFn σ Unit V where
  length := 0
  call := fun _ => effThrow (JsError.thrown ())

/-! ## throttle (fn.js, lines 132-149) -/

/-- The state of one `throttle(fn, timeToWait)` instance: the timers of the host (each
holding the `args` captured by its callback), the closure variables `isThrottling` and
`timer`, and the world of `fn`.  The wrapped `fn` acts on its own world only: it
neither calls the instance back nor touches the timers. -/
structure Throttle (σ V : Type) where
  host : Host (List V)
  isThrottling : Bool
  timer : Option Nat
  world : σ

/-- The function `throttle(fn, timeToWait)`: `let isThrottling = false; let timer = null`. -/
def throttle {σ V : Type} (host : Host (List V)) (world : σ) : Throttle σ V :=
  { host := host, isThrottling := false, timer := none, world := world }

/-- The function `executer(...args)` of throttle: when `isThrottling` is false, set it
and arm a timer whose callback holds `args`; otherwise do nothing. -/
def Throttle.executer {σ V : Type} (timeToWait : Nat) (args : List V)
    (t : Throttle σ V) : Throttle σ V :=
  if t.isThrottling = false then
    { host := (setTimeout t.host args timeToWait).2,
      isThrottling := true,
      timer := some (setTimeout t.host args timeToWait).1,
      world := t.world }
  else t

/-- The function `executer.cancel` of throttle: `clearTimeout(timer)`, and nothing else. -/
def Throttle.cancel {σ V : Type} (t : Throttle σ V) : Throttle σ V :=
  { host := clearTimeout t.host t.timer, isThrottling := t.isThrottling,
    timer := t.timer, world := t.world }

/-- The callback armed by `executer`: `fn(...args); isThrottling = false`.  When `fn`
throws, the assignment is not reached (the exception goes to the host uncaught). -/
def Throttle.fire {σ E V : Type} (fn : JsFn σ E V) (t : Throttle σ V)
    (tm : Timer (List V)) : Throttle σ V :=
  match fn.call tm.payload t.world with
  | (Except.ok _, w) =>
    { host := t.host, isThrottling := false, timer := t.timer, world := w }
  | (Except.error _, w) =>
    { host := t.host, isThrottling := t.isThrottling, timer := t.timer, world := w }

/-- Let `dt` milliseconds pass on a throttle instance: the timers due by then fire in
order and leave the queue, and the clock moves on. -/
def Throttle.elapse {σ E V : Type} (fn : JsFn σ E V) (dt : Nat)
    (t : Throttle σ V) : Throttle σ V :=
  (dueBy (t.host.now + dt) t.host.pending).foldl (Throttle.fire fn)
    { host :=
        { now := t.host.now + dt, nextId := t.host.nextId,
          pending := t.host.pending.filter (fun tm => decide (¬ tm.due ≤ t.host.now + dt)) },
      isThrottling := t.isThrottling, timer := t.timer, world := t.world }

/-- One event on a throttle instance. -/
def Throttle.step {σ E V : Type} (fn : JsFn σ E V) (timeToWait : Nat)
    (t : Throttle σ V) : Event V → Throttle σ V
  | Event.call args => Throttle.executer timeToWait args t
  | Event.cancel => Throttle.cancel t
  | Event.elapse dt => Throttle.elapse fn dt t

/-- A sequence of events on a throttle instance. -/
def Throttle.run {σ E V : Type} (fn : JsFn σ E V) (timeToWait : Nat)
    (t : Throttle σ V) (events : List (Event V)) : Throttle σ V :=
  events.foldl (Throttle.step fn timeToWait) t

/-- The reachable states of a throttle instance: no timer is armed, or exactly one is,
and then the instance is throttling, `timer` holds the handle of that timer, and the
timer is due within the window. -/
def Throttle.AtMostOne {σ V : Type} (timeToWait : Nat) (t : Throttle σ V) : Prop :=
  t.host.pending = []
    ∨ ∃ tm, t.host.pending = [tm] ∧ t.isThrottling = true ∧ t.timer = some tm.id
        ∧ tm.due ≤ t.host.now + timeToWait

/-- A timed sequence of calls: every call comes with the pause (its first component)
that precedes it. -/
def timed {V : Type} (calls : List (Nat × List V)) : List (Event V) :=
  calls.flatMap (fun c => [Event.elapse c.1, Event.call c.2])

/-- The argument lists of the calls among `events` that arrive while the instance is
open, that is, while `isThrottling` is false. -/
def Throttle.arrivedOpen {σ E V : Type} (fn : JsFn σ E V) (timeToWait : Nat) :
    Throttle σ V → List (Event V) → List (List V)
  | _, [] => []
  | t, Event.call args :: rest =>
    if t.isThrottling = false then
      args :: Throttle.arrivedOpen fn timeToWait (Throttle.executer timeToWait args t) rest
    else Throttle.arrivedOpen fn timeToWait (Throttle.executer timeToWait args t) rest
  | t, Event.cancel :: rest =>
    Throttle.arrivedOpen fn timeToWait (Throttle.cancel t) rest
  | t, Event.elapse dt :: rest =>
    Throttle.arrivedOpen fn timeToWait (Throttle.elapse fn dt t) rest

/-- The specification of the window by the clock alone: the argument lists of the timed
calls that are accepted when the instance is open at first and a window of `window`
milliseconds closes it after every accepted call.  The state is `none` while no window
is running, and `some e` when the last accepted call came `e` milliseconds ago. -/
def acceptedArgs {V : Type} (window : Nat) : Option Nat → List (Nat × List V) → List (List V)
  | _, [] => []
  | none, c :: rest => c.2 :: acceptedArgs window (some 0) rest
  | some e, c :: rest =>
    if window ≤ e + c.1 then c.2 :: acceptedArgs window (some 0) rest
    else acceptedArgs window (some (e + c.1)) rest

/-- The time that passes during a sequence of events. -/
def elapsed {V : Type} : List (Event V) → Nat
  | [] => 0
  | Event.elapse dt :: rest => dt + elapsed rest
  | _ :: rest => elapsed rest

/-! ## Laws of sequencing -/

theorem effPure_bind {σ E α β : Type} (a : α) (k : α → Eff σ E β) :
    effBind (effPure a) k = k a := rfl

theorem effBind_assoc {σ E α β γ : Type} (m : Eff σ E α) (k : α → Eff σ E β)
    (h : β → Eff σ E γ) :
    effBind (effBind m k) h = effBind m (fun a => effBind (k a) h) := by
  funext s
  simp only [effBind]
  rcases hm : m s with ⟨r, s1⟩
  cases r <;> simp

theorem effBind_pure {σ E α : Type} (m : Eff σ E α) : effBind m effPure = m := by
  funext s
  simp only [effBind, effPure]
  rcases hm : m s with ⟨r, s1⟩
  cases r <;> simp

theorem effBind_congr {σ E α β : Type} (m : Eff σ E α) {k1 k2 : α → Eff σ E β}
    (h : ∀ a, k1 a = k2 a) : effBind m k1 = effBind m k2 := by
  rw [show k1 = k2 from funext h]

/-! ## pipe and compose -/

theorem validate_fns {σ E V : Type} (fs : List (JsFn σ E V)) :
    validate (fs.map JsVal.fn) = effPure () := by
  induction fs with
  | nil => rfl
  | cons f rest ih => simpa [validate, isFunction] using ih

theorem validate_eq {σ E V : Type} (fnArr : List (JsVal σ E V)) :
    validate fnArr =
      if fnArr.all isFunction = true then effPure ()
      else effThrow (JsError.typeError "Invalid function") := by
  induction fnArr with
  | nil => rfl
  | cons x rest ih =>
    cases hx : isFunction x <;> simp [validate, hx, ih]

theorem pipe_eq {σ E V : Type} (fnArr : List (JsVal σ E V)) (s : σ) :
    pipe fnArr s =
      (if fnArr.all isFunction = true then Except.ok { length := 0, call := pipeCall fnArr }
       else Except.error (JsError.typeError "Invalid function"), s) := by
  unfold pipe
  rw [validate_eq]
  by_cases h : fnArr.all isFunction = true
  · rw [if_pos h, if_pos h]; rfl
  · rw [if_neg h, if_neg h]; rfl

theorem pipe_thread {σ E V : Type} (gs : List (JsFn σ E V)) (v : V) :
    effBind (reduceInit pipeStep (gs.map JsVal.fn) [v])
      (reduceNoInit (fun item _ => effPure item)) = thread gs v := by
  induction gs generalizing v with
  | nil => rfl
  | cons g rest ih =>
    simp only [List.map_cons, reduceInit, thread, pipeStep, callVal, effBind_assoc,
      effPure_bind]
    exact effBind_congr _ ih

theorem pipeCall_fns {σ E V : Type} (f : JsFn σ E V) (rest : List (JsFn σ E V))
    (args : List V) :
    pipeCall ((f :: rest).map JsVal.fn) args = nestedCalls f rest args := by
  simp only [pipeCall, List.map_cons, reduceInit, pipeStep, callVal, effBind_assoc,
    effPure_bind, nestedCalls]
  exact effBind_congr _ (pipe_thread rest)

theorem pipe_fns {σ E V : Type} (fs : List (JsFn σ E V)) (s : σ) :
    pipe (fs.map JsVal.fn) s
      = (Except.ok { length := 0, call := pipeCall (fs.map JsVal.fn) }, s) := by
  unfold pipe
  rw [validate_fns]
  rfl

theorem pipeCall_three {σ E V : Type} (f g h : JsFn σ E V) (x : V) :
    pipeCall [JsVal.fn f, JsVal.fn g, JsVal.fn h] [x]
      = effBind (f.call [x]) (fun a => effBind (g.call [a]) (fun b => h.call [b])) := by
  have := pipeCall_fns f [g, h] [x]
  simp only [List.map_cons, List.map_nil] at this
  rw [this]
  simp only [nestedCalls, thread]
  exact effBind_congr _ (fun a => effBind_congr _ (fun b => effBind_pure _))

/-- C1: for functions `f1 .. fn` (a non-empty sequence `f :: rest`), `pipe` constructs
without touching the world and returns the piping function, and calling that function
with `args` is `fn(...f2(f1(...args))...)`: `f1` receives the whole argument list, every
later function exactly the single result of the one before, and the last result is
returned as it is, outcome and effects included.  In particular
`pipe(f, g, h)(x) = h(g(f(x)))`. -/
theorem pipe_is_nested_calls {σ E V : Type} (f : JsFn σ E V) (rest : List (JsFn σ E V))
    (args : List V) (s : σ) :
    pipe ((f :: rest).map JsVal.fn) s
        = (Except.ok { length := 0, call := pipeCall ((f :: rest).map JsVal.fn) }, s)
      ∧ pipeCall ((f :: rest).map JsVal.fn) args = nestedCalls f rest args
      ∧ (∀ (g h : JsFn σ E V) (x : V),
          pipeCall [JsVal.fn f, JsVal.fn g, JsVal.fn h] [x]
            = effBind (f.call [x]) (fun a => effBind (g.call [a]) (fun b => h.call [b]))) := by
  exact ⟨pipe_fns (f :: rest) s, pipeCall_fns f rest args, fun g h x => pipeCall_three f g h x⟩

/-- C2: `compose` is `pipe` over the reversed sequence, for every sequence.  For
functions `f1 .. fn` (here `init ++ [l]`) the composed function called with `args` is
`f1(f2(...fn(...args)...))`: the last function `l` receives the whole argument list and
the result is threaded through the others from right to left.  In particular
`compose(f, g, h)(x) = f(g(h(x)))`. -/
theorem compose_is_pipe_reversed {σ E V : Type} (init : List (JsFn σ E V)) (l : JsFn σ E V)
    (args : List V) (s : σ) :
    (∀ fnArr : List (JsVal σ E V), compose fnArr = pipe fnArr.reverse)
      ∧ compose ((init ++ [l]).map JsVal.fn) s
          = (Except.ok { length := 0, call := pipeCall ((l :: init.reverse).map JsVal.fn) }, s)
      ∧ pipeCall ((l :: init.reverse).map JsVal.fn) args = nestedCalls l init.reverse args
      ∧ (∀ (f g h : JsFn σ E V) (x : V),
          compose [JsVal.fn f, JsVal.fn g, JsVal.fn h] s
              = (Except.ok { length := 0,
                             call := pipeCall [JsVal.fn h, JsVal.fn g, JsVal.fn f] }, s)
            ∧ pipeCall [JsVal.fn h, JsVal.fn g, JsVal.fn f] [x]
              = effBind (h.call [x]) (fun a => effBind (g.call [a]) (fun b => f.call [b]))) := by
  refine ⟨fun _ => rfl, ?_, pipeCall_fns l init.reverse args, ?_⟩
  · have h := pipe_fns (l :: init.reverse) s
    simpa [compose] using h
  · intro f g h x
    exact ⟨pipe_fns [h, g, f] s, pipeCall_three h g f x⟩

/-- C3: constructing with `pipe`, and likewise with `compose`, throws a `TypeError`
exactly when some element of the sequence is not a function; otherwise it returns the
piping function.  Either way the world is left as it was: the check happens at
construction and none of the supplied functions is invoked. -/
theorem pipe_validates_eagerly {σ E V : Type} (fnArr : List (JsVal σ E V)) (s : σ) :
    pipe fnArr s
        = (if fnArr.all isFunction = true
             then Except.ok { length := 0, call := pipeCall fnArr }
             else Except.error (JsError.typeError "Invalid function"), s)
      ∧ ((∃ msg, (pipe fnArr s).1 = Except.error (JsError.typeError msg))
          ↔ ∃ x ∈ fnArr, isFunction x = false)
      ∧ compose fnArr s
        = (if fnArr.all isFunction = true
             then Except.ok { length := 0, call := pipeCall fnArr.reverse }
             else Except.error (JsError.typeError "Invalid function"), s)
      ∧ ((∃ msg, (compose fnArr s).1 = Except.error (JsError.typeError msg))
          ↔ ∃ x ∈ fnArr, isFunction x = false) := by
  have key : ∀ l : List (JsVal σ E V),
      ((∃ msg, (pipe l s).1 = Except.error (JsError.typeError msg))
          ↔ ∃ x ∈ l, isFunction x = false) := by
    intro l
    rw [pipe_eq]
    by_cases h : l.all isFunction = true
    · simp only [if_pos h]
      constructor
      · rintro ⟨msg, hm⟩
        cases hm
      · rintro ⟨x, hx, hf⟩
        rw [List.all_eq_true] at h
        rw [h x hx] at hf
        cases hf
    · simp only [if_neg h]
      constructor
      · intro _
        simpa using h
      · intro _
        exact ⟨_, rfl⟩
  refine ⟨pipe_eq fnArr s, key fnArr, ?_, ?_⟩
  · unfold compose
    rw [pipe_eq]
    simp
  · unfold compose
    rw [key]
    simp

/-- C6: `curry(x, r)` throws a `TypeError` exactly when `x` is not a function, and does
so when `curry` itself is called; for a function it returns the callable holding no
arguments yet.  Either way the world is left as it was: `x` is not invoked. -/
theorem curry_validates_eagerly {σ E V : Type} (x : JsVal σ E V) (r : Option Nat) (s : σ) :
    curry x r s
        = (if isFunction x = true then Except.ok (Curried.callable [])
           else Except.error (JsError.typeError "curry requires a function"), s)
      ∧ ((∃ msg, (curry x r s).1 = Except.error (JsError.typeError msg))
          ↔ isFunction x = false)
      ∧ (curry x r s).2 = s := by
  cases hx : isFunction x <;> simp [curry, hx, effPure, effThrow]

/-- C9: `partial(f, ...p)` returns the closure `applied` without calling anything, and
`partial(f, ...p)(...s)` is the call `f(...p, ...s)`, for every prefix `p` and suffix
`sfx` (empty ones included).  A recording `f` sees exactly one invocation per call of the
closure, with the arguments `p ++ sfx`.  Example: `partial(f, 1, 2)(3, 4) = 10` for
`f = (a, b, c, d) => a + b + c + d`. -/
theorem partial_applies_once {σ E V : Type} (f : JsFn σ E V) (p sfx : List V) (s : σ)
    (log : List (List V)) :
    partialFn (JsVal.fn f) p s
        = (Except.ok { length := 0, call := applied (JsVal.fn f) p }, s)
      ∧ applied (JsVal.fn f) p sfx = f.call (p ++ sfx)
      ∧ applied (JsVal.fn (spy f)) p sfx (s, log)
        = ((f.call (p ++ sfx) s).1, ((f.call (p ++ sfx) s).2, log ++ [p ++ sfx]))
      ∧ applied (JsVal.fn (sumFour : JsFn Unit Unit TestVal))
          [TestVal.num 1, TestVal.num 2] [TestVal.num 3, TestVal.num 4] ()
        = (Except.ok (TestVal.num 10), ()) := by
  exact ⟨rfl, rfl, rfl, rfl⟩

/-! ## curry -/

theorem reachesRequired_mono {a b : Nat} (r : Option Nat) (hab : a ≤ b)
    (h : reachesRequired b r = false) : reachesRequired a r = false := by
  cases r with
  | none => rfl
  | some n =>
    simp only [reachesRequired, decide_eq_false_iff_not, not_le] at h ⊢
    omega

theorem _curry_below {σ E V : Type} (fn : JsFn σ E V) (r : Option Nat)
    (stored new : List V) (hn : (stored ++ new).length < fn.length)
    (hr : reachesRequired (stored ++ new).length r = false) :
    _curry fn r stored new = effPure (Curried.callable (stored ++ new)) := by
  have : ¬ (fn.length ≤ (stored ++ new).length
      ∨ reachesRequired (stored ++ new).length r = true) := by
    rw [hr]
    simp only [Bool.false_eq_true, or_false, not_le]
    exact hn
  simp only [_curry, if_neg this]

theorem _curry_fires {σ E V : Type} (fn : JsFn σ E V) (r : Option Nat)
    (stored new : List V)
    (h : fn.length ≤ (stored ++ new).length
      ∨ reachesRequired (stored ++ new).length r = true) :
    _curry fn r stored new
      = effBind (fn.call (stored ++ new)) (fun v => effPure (Curried.value v)) := by
  simp only [_curry, if_pos h]

theorem callChain_below {σ E V : Type} (fn : JsFn σ E V) (r : Option Nat)
    (calls : List (List V)) (stored : List V)
    (hn : (stored ++ calls.flatten).length < fn.length)
    (hr : reachesRequired (stored ++ calls.flatten).length r = false) :
    callChain fn r stored calls
      = effPure (Curried.callable (stored ++ calls.flatten), []) := by
  induction calls generalizing stored with
  | nil => simp [callChain]
  | cons c cs ih =>
    have hle : (stored ++ c).length ≤ (stored ++ (c :: cs).flatten).length := by
      simp only [List.flatten_cons, List.length_append]
      omega
    rw [callChain, _curry_below fn r stored c (by omega) (reachesRequired_mono r hle hr),
      effPure_bind]
    simp only [List.flatten_cons, ← List.append_assoc] at hn hr ⊢
    exact ih (stored ++ c) hn hr

theorem callChain_fires {σ E V : Type} (fn : JsFn σ E V) (r : Option Nat)
    (pre : List (List V)) (c : List V) (rest : List (List V))
    (hn : pre.flatten.length < fn.length)
    (hr : reachesRequired pre.flatten.length r = false)
    (h : fn.length ≤ (pre.flatten ++ c).length
      ∨ reachesRequired (pre.flatten ++ c).length r = true) :
    callChain fn r [] (pre ++ c :: rest)
      = effBind (fn.call (pre.flatten ++ c)) (fun v => effPure (Curried.value v, rest)) := by
  have gen : ∀ (pre : List (List V)) (stored : List V),
      (stored ++ pre.flatten).length < fn.length →
      reachesRequired (stored ++ pre.flatten).length r = false →
      (fn.length ≤ (stored ++ pre.flatten ++ c).length
        ∨ reachesRequired (stored ++ pre.flatten ++ c).length r = true) →
      callChain fn r stored (pre ++ c :: rest)
        = effBind (fn.call (stored ++ pre.flatten ++ c))
            (fun v => effPure (Curried.value v, rest)) := by
    intro pre
    induction pre with
    | nil =>
      intro stored _ _ h
      simp only [List.flatten_nil, List.append_nil, List.nil_append] at h ⊢
      rw [callChain, _curry_fires fn r stored c h, effBind_assoc]
      rfl
    | cons c1 cs ih =>
      intro stored hn hr h
      have hle : (stored ++ c1).length ≤ (stored ++ (c1 :: cs).flatten).length := by
        simp only [List.flatten_cons, List.length_append]
        omega
      rw [List.cons_append, callChain,
        _curry_below fn r stored c1 (by omega) (reachesRequired_mono r hle hr), effPure_bind]
      simp only [List.flatten_cons, ← List.append_assoc] at hn hr h ⊢
      exact ih (stored ++ c1) hn hr h
  simpa using gen pre [] (by simpa using hn) (by simpa using hr) (by simpa using h)

theorem effBind_pure_apply {σ E α β : Type} (m : Eff σ E α) (g : α → β) (s : σ) :
    effBind m (fun v => effPure (g v)) s = ((m s).1.map g, (m s).2) := by
  simp only [effBind, effPure]
  rcases m s with ⟨r, s1⟩
  cases r <;> rfl

theorem callChain_log {σ E V : Type} (fn : JsFn σ E V) (r : Nat) (calls : List (List V))
    (stored : List V) (w : σ × List (List V)) :
    ∀ entry ∈ (callChain (spy fn) (some r) stored calls w).2.2,
      entry ∈ w.2 ∨ min fn.length r ≤ entry.length := by
  induction calls generalizing stored w with
  | nil =>
    intro entry h
    exact Or.inl h
  | cons c cs ih =>
    intro entry h
    rw [callChain] at h
    by_cases hf : (spy fn).length ≤ (stored ++ c).length
        ∨ reachesRequired (stored ++ c).length (some r) = true
    · rw [_curry_fires (spy fn) (some r) stored c hf, effBind_assoc] at h
      simp only [effPure_bind] at h
      rw [effBind_pure_apply] at h
      simp only [spy, List.mem_append, List.mem_singleton] at h
      rcases h with h | h
      · exact Or.inl h
      · right
        subst h
        simp only [spy, reachesRequired, decide_eq_true_eq] at hf
        omega
    · have hn : (stored ++ c).length < (spy fn).length := by
        by_contra hc
        exact hf (Or.inl (by omega))
      have hr : reachesRequired (stored ++ c).length (some r) = false := by
        cases hb : reachesRequired (stored ++ c).length (some r)
        · rfl
        · exact absurd (Or.inr hb) hf
      rw [_curry_below (spy fn) (some r) stored c hn hr, effPure_bind] at h
      exact ih (stored ++ c) w entry h

/-- C4: `curry(fn, r)` of a function returns a callable holding no arguments.  A chain of
calls whose accumulated arguments stay below both `fn.length` and `r` returns a callable
holding `c1 ++ ... ++ ci`, and `fn` is not invoked (the world, and the record of a
recording `fn`, are untouched).  At the first call `c` with which the accumulated
count reaches `fn.length` or `r`, the chain is one invocation of `fn` with all the
accumulated arguments in order, excess ones included, and returns its result.  In
particular `curry(fn)(...a)(...b) = fn(...a, ...b)` when `|a| < fn.length ≤ |a| + |b|`. -/
theorem curry_accumulates_then_fires {σ E V : Type} (fn : JsFn σ E V) (r : Option Nat)
    (s : σ) (log : List (List V)) :
    curry (JsVal.fn fn) r s = (Except.ok (Curried.callable []), s)
      ∧ (∀ calls : List (List V), calls.flatten.length < fn.length →
          reachesRequired calls.flatten.length r = false →
          callChain fn r [] calls s = (Except.ok (Curried.callable calls.flatten, []), s)
            ∧ (callChain (spy fn) r [] calls (s, log)).2 = (s, log))
      ∧ (∀ (pre : List (List V)) (c : List V) (rest : List (List V)),
          pre.flatten.length < fn.length →
          reachesRequired pre.flatten.length r = false →
          (fn.length ≤ (pre.flatten ++ c).length
            ∨ reachesRequired (pre.flatten ++ c).length r = true) →
          callChain fn r [] (pre ++ c :: rest) s
              = ((fn.call (pre.flatten ++ c) s).1.map (fun v => (Curried.value v, rest)),
                 (fn.call (pre.flatten ++ c) s).2)
            ∧ (callChain (spy fn) r [] (pre ++ c :: rest) (s, log)).2
              = ((fn.call (pre.flatten ++ c) s).2, log ++ [pre.flatten ++ c]))
      ∧ (∀ a b : List V, a.length < fn.length → fn.length ≤ a.length + b.length →
          callChain fn none [] [a, b] s
            = ((fn.call (a ++ b) s).1.map (fun v => (Curried.value v, [])),
               (fn.call (a ++ b) s).2)) := by
  refine ⟨rfl, ?_, ?_, ?_⟩
  · intro calls hn hr
    constructor
    · rw [callChain_below fn r calls [] (by simpa using hn) (by simpa using hr)]
      rfl
    · rw [callChain_below (spy fn) r calls [] (by simpa using hn) (by simpa using hr)]
      rfl
  · intro pre c rest hn hr h
    constructor
    · rw [callChain_fires fn r pre c rest hn hr h, effBind_pure_apply]
    · rw [callChain_fires (spy fn) r pre c rest hn hr h, effBind_pure_apply]
      rfl
  · intro a b ha hb
    have h := callChain_fires fn none [a] b [] (by simpa using ha) rfl
      (Or.inl (by simp only [List.flatten_cons, List.flatten_nil, List.append_nil,
        List.length_append]; exact hb))
    simp only [List.flatten_cons, List.flatten_nil, List.append_nil, List.singleton_append] at h
    rw [h, effBind_pure_apply]

theorem curry_accumulates_then_fires_witness :
    callChain (sumFour : JsFn Unit Unit TestVal) none []
        [[TestVal.num 1], [TestVal.num 2]] ()
        = (Except.ok (Curried.callable [TestVal.num 1, TestVal.num 2], []), ())
      ∧ callChain (spy (sumFour : JsFn Unit Unit TestVal)) none []
          [[TestVal.num 1, TestVal.num 2], [TestVal.num 3, TestVal.num 4]] ((), [])
        = (Except.ok (Curried.value (TestVal.num 10), []),
           ((), [[TestVal.num 1, TestVal.num 2, TestVal.num 3, TestVal.num 4]]))
      ∧ callChain (add2 : JsFn Unit Unit TestVal) none [] [[TestVal.num 1], [TestVal.num 1]] ()
        = (Except.ok (Curried.value (TestVal.num 2), []), ()) :=
  ⟨((curry_accumulates_then_fires sumFour none () []).2.1
      [[TestVal.num 1], [TestVal.num 2]] (by decide) rfl).1,
   (curry_accumulates_then_fires (spy sumFour) none ((), []) []).2.2.1
      [[TestVal.num 1, TestVal.num 2]] [TestVal.num 3, TestVal.num 4] []
      (by decide) rfl (Or.inl (by decide)) |>.1,
   (curry_accumulates_then_fires add2 none () []).2.2.2
      [TestVal.num 1] [TestVal.num 1] (by decide) (by decide)⟩

/-- The bound the firing test of `_curry` does keep: whenever `fn` is invoked through
`curry(fn, r)` with a finite `r`, the number of accumulated arguments passed to it is at
least the smaller of `fn.length` and `r` (so at least `r` when `r ≤ fn.length`). -/
theorem curry_fires_at_smaller_bound {σ E V : Type} (fn : JsFn σ E V) (r : Nat)
    (calls : List (List V)) (s : σ) (entry : List V)
    (h : entry ∈ (callChain (spy fn) (some r) [] calls (s, [])).2.2) :
    min fn.length r ≤ entry.length := by
  rcases callChain_log fn r calls [] (s, []) entry h with h1 | h1
  · cases h1
  · exact h1

theorem curry_fires_at_smaller_bound_witness :
    [TestVal.num 1, TestVal.num 2]
        ∈ (callChain (spy (sumFour : JsFn Unit Unit TestVal)) (some 2) []
            [[TestVal.num 1], [TestVal.num 2]] ((), [])).2.2
      ∧ min (sumFour : JsFn Unit Unit TestVal).length 2
          ≤ [TestVal.num 1, TestVal.num 2].length :=
  ⟨by decide,
   curry_fires_at_smaller_bound sumFour 2 [[TestVal.num 1], [TestVal.num 2]] ()
     [TestVal.num 1, TestVal.num 2] (by decide)⟩

/-- C5: the code at the failing input.  The header comment of `curry` makes
`RequiredNumOfArgs` a minimal number of arguments `fn` must have before it is executed,
but `curry(fn, 3)` of the two-parameter `(a, b) => a + b`, called with two arguments,
invokes `fn` with those two arguments and returns 3: the test `args.length >= fn.length`
alone lets the call through, with fewer than the 3 arguments required. -/
theorem curry_required_is_not_a_minimum :
    (callChain (spy (add2 : JsFn Unit Unit TestVal)) (some 3) []
        [[TestVal.num 1, TestVal.num 2]] ((), []))
      = (Except.ok (Curried.value (TestVal.num 3), []),
         ((), [[TestVal.num 1, TestVal.num 2]]))
      ∧ [TestVal.num 1, TestVal.num 2].length < 3 :=
  ⟨rfl, by decide⟩

/-! ## memorizer -/

theorem Cache.get_set_same {V : Type} (c : Cache V) (k : String) (v : V) :
    Cache.get (Cache.set c k v) k = some v := by
  induction c with
  | nil => simp [Cache.set, Cache.get]
  | cons e rest ih =>
    rcases e with ⟨k1, v1⟩
    by_cases h : k1 = k
    · simp [Cache.set, Cache.get, h]
    · simp [Cache.set, Cache.get, h, ih]

theorem Cache.get_set_other {V : Type} (c : Cache V) (k k2 : String) (v : V)
    (hne : k2 ≠ k) : Cache.get (Cache.set c k v) k2 = Cache.get c k2 := by
  induction c with
  | nil =>
    have : ¬ k = k2 := fun h => hne h.symm
    simp [Cache.set, Cache.get, this]
  | cons e rest ih =>
    rcases e with ⟨k1, v1⟩
    by_cases h : k1 = k
    · subst h
      have : ¬ k1 = k2 := fun h => hne h.symm
      simp [Cache.set, Cache.get, this]
    · by_cases h2 : k1 = k2
      · subst h2
        simp [Cache.set, Cache.get, h]
      · simp [Cache.set, Cache.get, h, h2, ih]

theorem Cache.has_set {V : Type} (c : Cache V) (k k2 : String) (v : V) :
    Cache.has (Cache.set c k v) k2 = true ↔ k2 = k ∨ Cache.has c k2 = true := by
  by_cases h : k2 = k
  · subst h
    simp [Cache.has, Cache.get_set_same]
  · simp [Cache.has, Cache.get_set_other c k k2 v h, h]

theorem _memorizer_hit {σ E V : Type} (stringify : List V → String) (fn : JsFn σ E V)
    (args : List V) (c : Cache V) (s : σ) (v : V)
    (h : Cache.get c (stringify args) = some v) :
    _memorizer stringify fn args (c, s) = (Except.ok (some v), (c, s)) := by
  simp [_memorizer, Cache.has, h]

theorem _memorizer_miss {σ E V : Type} (stringify : List V → String) (fn : JsFn σ E V)
    (args : List V) (c : Cache V) (s : σ) (v : V)
    (h : Cache.has c (stringify args) = false) (hv : (fn.call args s).1 = Except.ok v) :
    _memorizer stringify fn args (c, s)
      = (Except.ok (some v), (Cache.set c (stringify args) v, (fn.call args s).2)) := by
  simp only [_memorizer, h, if_true]
  rcases hc : fn.call args s with ⟨r, s1⟩
  rw [hc] at hv
  simp only at hv
  subst hv
  simp [Cache.get_set_same]

theorem _memorizer_miss_throw {σ E V : Type} (stringify : List V → String)
    (fn : JsFn σ E V) (args : List V) (c : Cache V) (s : σ) (e : JsError E)
    (h : Cache.has c (stringify args) = false) (hv : (fn.call args s).1 = Except.error e) :
    _memorizer stringify fn args (c, s) = (Except.error e, (c, (fn.call args s).2)) := by
  simp only [_memorizer, h, if_true]
  rcases hc : fn.call args s with ⟨r, s1⟩
  rw [hc] at hv
  simp only at hv
  subst hv
  rfl

theorem has_or_get {V : Type} (c : Cache V) (k : String) :
    Cache.has c k = false ∨ ∃ v, Cache.get c k = some v := by
  unfold Cache.has
  cases h : Cache.get c k with
  | none => exact Or.inl rfl
  | some v => exact Or.inr ⟨v, rfl⟩

/-- An entry of the cache survives every later call unchanged. -/
theorem callAll_keeps {σ E V : Type} (stringify : List V → String) (fn : JsFn σ E V)
    (calls : List (List V)) (c : Cache V) (s : σ) (k : String) (v : V)
    (h : Cache.get c k = some v) :
    Cache.get (callAll (_memorizer stringify fn) calls (c, s)).2.1 k = some v := by
  induction calls generalizing c s with
  | nil => exact h
  | cons a rest ih =>
    simp only [callAll]
    rcases has_or_get c (stringify a) with hm | ⟨v1, hv1⟩
    · have hne : k ≠ stringify a := by
        intro hk
        rw [Cache.has, ← hk, h] at hm
        cases hm
      cases hr : (fn.call a s).1 with
      | ok v1 =>
        rw [_memorizer_miss stringify fn a c s v1 hm hr]
        exact ih _ _ (by rw [Cache.get_set_other _ _ _ _ hne]; exact h)
      | error e =>
        rw [_memorizer_miss_throw stringify fn a c s e hm hr]
        exact ih _ _ h
    · rw [_memorizer_hit stringify fn a c s v1 hv1]
      exact ih _ _ h

/-- Only the keys of the calls made enter the cache. -/
theorem callAll_keys {σ E V : Type} (stringify : List V → String) (fn : JsFn σ E V)
    (calls : List (List V)) (c : Cache V) (s : σ) (k : String)
    (h : Cache.has (callAll (_memorizer stringify fn) calls (c, s)).2.1 k = true) :
    Cache.has c k = true ∨ k ∈ calls.map stringify := by
  induction calls generalizing c s with
  | nil => exact Or.inl h
  | cons a rest ih =>
    simp only [callAll] at h
    rcases has_or_get c (stringify a) with hm | ⟨v1, hv1⟩
    · cases hr : (fn.call a s).1 with
      | ok v1 =>
        rw [_memorizer_miss stringify fn a c s v1 hm hr] at h
        rcases ih _ _ h with h1 | h1
        · rw [Cache.has_set] at h1
          rcases h1 with h1 | h1
          · right; simp [h1]
          · exact Or.inl h1
        · right; simp only [List.map_cons, List.mem_cons]; exact Or.inr h1
      | error e =>
        rw [_memorizer_miss_throw stringify fn a c s e hm hr] at h
        rcases ih _ _ h with h1 | h1
        · exact Or.inl h1
        · right; simp only [List.map_cons, List.mem_cons]; exact Or.inr h1
    · rw [_memorizer_hit stringify fn a c s v1 hv1] at h
      rcases ih _ _ h with h1 | h1
      · exact Or.inl h1
      · right; simp only [List.map_cons, List.mem_cons]; exact Or.inr h1

/-- The record of a recording function under a memorizer: one entry per new key. -/
theorem callAll_log {σ E V : Type} (stringify : List V → String) (fn : JsFn σ E V)
    (hret : ∀ args s, ∃ v, (fn.call args s).1 = Except.ok v)
    (calls : List (List V)) (c : Cache V) (s : σ) (log : List (List V))
    (seen : List String) (hseen : ∀ k, Cache.has c k = true ↔ k ∈ seen) :
    (callAll (_memorizer stringify (spy fn)) calls (c, (s, log))).2.2.2
      = log ++ firstOfKey stringify seen calls := by
  induction calls generalizing c s log seen with
  | nil => simp [callAll, firstOfKey]
  | cons a rest ih =>
    simp only [callAll, firstOfKey]
    by_cases hk : stringify a ∈ seen
    · have hh := (hseen _).2 hk
      rcases has_or_get c (stringify a) with hm | ⟨v1, hv1⟩
      · rw [hm] at hh; cases hh
      · rw [_memorizer_hit stringify (spy fn) a c (s, log) v1 hv1, if_pos hk]
        exact ih c s log seen hseen
    · have hm : Cache.has c (stringify a) = false := by
        cases hb : Cache.has c (stringify a)
        · rfl
        · exact absurd ((hseen _).1 hb) hk
      obtain ⟨v, hv⟩ := hret a s
      have hv2 : ((spy fn).call a (s, log)).1 = Except.ok v := hv
      rw [_memorizer_miss stringify (spy fn) a c (s, log) v hm hv2, if_neg hk]
      have := ih (Cache.set c (stringify a) v) (fn.call a s).2 (log ++ [a])
        (stringify a :: seen) (by
          intro k
          rw [Cache.has_set, List.mem_cons, hseen])
      simpa [spy] using this

/-- C7: let `fn` return normally on every call.  On one `memorizer(fn)` instance, a call
whose key is not in the cache invokes `fn` once with its arguments, stores the result
under the key and returns it; a later call `b` whose argument list serialises to the
key of an earlier call `a` returns the outcome of `a` and changes nothing (`fn` is not
invoked), whether or not `b` and `a` are the same list; a call whose key no earlier
call had invokes `fn`.  Over a whole sequence of calls on a fresh instance the
invocations of `fn` are exactly the calls that are the first of their key, in order.
Example: for `(a, b) => a + b` the calls `(1,2), (1,2)` give 3, 3 with one invocation, and
a further `(2,3)` gives 5 with two. -/
theorem memorizer_once_per_key {σ E V : Type} (stringify : List V → String)
    (fn : JsFn σ E V) (hret : ∀ args s, ∃ v, (fn.call args s).1 = Except.ok v)
    (s : σ) (log : List (List V)) :
    (∀ (c : Cache V) (args : List V) (v : V), Cache.has c (stringify args) = false →
        (fn.call args s).1 = Except.ok v →
        _memorizer stringify (spy fn) args (c, (s, log))
          = (Except.ok (some v),
             (Cache.set c (stringify args) v, ((fn.call args s).2, log ++ [args]))))
      ∧ (∀ (pre mid : List (List V)) (a b : List V) (w1 w2 : Cache V × σ × List (List V)),
          w1 = (callAll (_memorizer stringify (spy fn)) pre (memorizer, (s, log))).2 →
          w2 = (callAll (_memorizer stringify (spy fn)) mid
                  (_memorizer stringify (spy fn) a w1).2).2 →
          stringify a = stringify b →
          _memorizer stringify (spy fn) b w2
            = ((_memorizer stringify (spy fn) a w1).1, w2))
      ∧ (∀ (pre : List (List V)) (a : List V) (w1 : Cache V × σ × List (List V)),
          w1 = (callAll (_memorizer stringify (spy fn)) pre (memorizer, (s, log))).2 →
          stringify a ∉ pre.map stringify →
          (_memorizer stringify (spy fn) a w1).1 = (fn.call a w1.2.1).1.map some
            ∧ (_memorizer stringify (spy fn) a w1).2.2.2 = w1.2.2 ++ [a])
      ∧ (∀ calls : List (List V),
          (callAll (_memorizer stringify (spy fn)) calls (memorizer, (s, log))).2.2.2
            = log ++ firstOfKey stringify [] calls)
      ∧ (callAll (_memorizer jsonArgs (spy (add2 : JsFn Unit Unit TestVal)))
            [[TestVal.num 1, TestVal.num 2], [TestVal.num 1, TestVal.num 2]]
            (memorizer, ((), [])))
          = ([Except.ok (some (TestVal.num 3)), Except.ok (some (TestVal.num 3))],
             ([("[1,2]", TestVal.num 3)], ((), [[TestVal.num 1, TestVal.num 2]])))
      ∧ (callAll (_memorizer jsonArgs (spy (add2 : JsFn Unit Unit TestVal)))
            [[TestVal.num 1, TestVal.num 2], [TestVal.num 1, TestVal.num 2],
             [TestVal.num 2, TestVal.num 3]]
            (memorizer, ((), [])))
          = ([Except.ok (some (TestVal.num 3)), Except.ok (some (TestVal.num 3)),
              Except.ok (some (TestVal.num 5))],
             ([("[1,2]", TestVal.num 3), ("[2,3]", TestVal.num 5)],
              ((), [[TestVal.num 1, TestVal.num 2], [TestVal.num 2, TestVal.num 3]]))) := by
  refine ⟨?_, ?_, ?_, ?_, rfl, rfl⟩
  · intro c args v hm hv
    exact _memorizer_miss stringify (spy fn) args c (s, log) v hm hv
  · intro pre mid a b w1 w2 hw1 hw2 hab
    rcases w1 with ⟨c1, u1⟩
    -- the outcome of `a`, and the entry the cache holds after it
    have ha : ∃ v, (_memorizer stringify (spy fn) a (c1, u1)).1 = Except.ok (some v)
        ∧ Cache.get (_memorizer stringify (spy fn) a (c1, u1)).2.1 (stringify a) = some v := by
      rcases has_or_get c1 (stringify a) with hm | ⟨v1, hv1⟩
      · obtain ⟨v, hv⟩ := hret a u1.1
        have hv2 : ((spy fn).call a u1).1 = Except.ok v := hv
        rw [_memorizer_miss stringify (spy fn) a c1 u1 v hm hv2]
        exact ⟨v, rfl, Cache.get_set_same _ _ _⟩
      · rw [_memorizer_hit stringify (spy fn) a c1 u1 v1 hv1]
        exact ⟨v1, rfl, hv1⟩
    obtain ⟨v, hout, hget⟩ := ha
    rcases hstep : (_memorizer stringify (spy fn) a (c1, u1)).2 with ⟨c2, u2⟩
    rw [hstep] at hw2 hget
    have hkeep := callAll_keeps stringify (spy fn) mid c2 u2 (stringify a) v hget
    rw [← hw2] at hkeep
    rcases w2 with ⟨c3, u3⟩
    rw [hout]
    rw [hab] at hkeep
    exact _memorizer_hit stringify (spy fn) b c3 u3 v hkeep
  · intro pre a w1 hw1 hnew
    rcases w1 with ⟨c1, u1⟩
    have hm : Cache.has c1 (stringify a) = false := by
      cases hb : Cache.has c1 (stringify a)
      · rfl
      · have hc : Cache.has (callAll (_memorizer stringify (spy fn)) pre
            (memorizer, (s, log))).2.1 (stringify a) = true := by
          rw [← hw1]; exact hb
        rcases callAll_keys stringify (spy fn) pre memorizer (s, log) (stringify a) hc with h1 | h1
        · cases h1
        · exact absurd h1 hnew
    obtain ⟨v, hv⟩ := hret a u1.1
    have hv2 : ((spy fn).call a u1).1 = Except.ok v := hv
    rw [_memorizer_miss stringify (spy fn) a c1 u1 v hm hv2]
    simp only [hv]
    exact ⟨rfl, rfl⟩
  · intro calls
    exact callAll_log stringify fn hret calls memorizer s log [] (by
      intro k
      simp [memorizer, newMap, Cache.has, Cache.get])

theorem memorizer_once_per_key_witness :
    (∀ args s, ∃ v, ((add2 : JsFn Unit Unit TestVal).call args s).1 = Except.ok v)
      ∧ (callAll (_memorizer jsonArgs (spy (add2 : JsFn Unit Unit TestVal)))
            [[TestVal.num 1, TestVal.num 2], [TestVal.num 2, TestVal.num 3],
             [TestVal.num 1, TestVal.num 2]]
            (memorizer, ((), []))).2.2.2
          = [] ++ firstOfKey jsonArgs []
              [[TestVal.num 1, TestVal.num 2], [TestVal.num 2, TestVal.num 3],
               [TestVal.num 1, TestVal.num 2]] :=
  ⟨fun _ _ => ⟨_, rfl⟩,
   (memorizer_once_per_key jsonArgs add2 (fun _ _ => ⟨_, rfl⟩) () []).2.2.2.1 _⟩

/-- The outcomes of a sequence of calls when `fn` is pure and every cached entry of a
key of the sequence holds the value of `fn` there. -/
theorem callAll_pure {σ E V : Type} (stringify : List V → String) (fn : JsFn σ E V)
    (g : List V → Except (JsError E) V) (hpure : ∀ args s, fn.call args s = (g args, s))
    (calls : List (List V))
    (hinj : ∀ a ∈ calls, ∀ b ∈ calls, stringify a = stringify b → a = b)
    (c : Cache V) (s : σ)
    (hc : ∀ a ∈ calls, ∀ v, Cache.get c (stringify a) = some v → g a = Except.ok v) :
    (callAll (_memorizer stringify fn) calls (c, s)).1
        = calls.map (fun a => (g a).map some)
      ∧ (callAll (_memorizer stringify fn) calls (c, s)).2.2 = s := by
  induction calls generalizing c with
  | nil => exact ⟨rfl, rfl⟩
  | cons a rest ih =>
    have hinj2 : ∀ x ∈ rest, ∀ y ∈ rest, stringify x = stringify y → x = y :=
      fun x hx y hy => hinj x (List.mem_cons_of_mem _ hx) y (List.mem_cons_of_mem _ hy)
    simp only [callAll, List.map_cons]
    rcases has_or_get c (stringify a) with hm | ⟨v1, hv1⟩
    · cases hr : g a with
      | ok v =>
        have hv : (fn.call a s).1 = Except.ok v := by rw [hpure, hr]
        have hs : (fn.call a s).2 = s := by rw [hpure]
        rw [_memorizer_miss stringify fn a c s v hm hv, hs]
        have := ih hinj2 (Cache.set c (stringify a) v) (by
          intro b hb v2 hget
          by_cases hk : stringify b = stringify a
          · have hba : b = a :=
              hinj b (List.mem_cons_of_mem _ hb) a (List.mem_cons_self _ _) hk
            rw [hk, Cache.get_set_same] at hget
            cases hget
            rw [hba, hr]
          · rw [Cache.get_set_other _ _ _ _ hk] at hget
            exact hc b (List.mem_cons_of_mem _ hb) v2 hget)
        exact ⟨by rw [this.1]; rfl, this.2⟩
      | error e =>
        have hv : (fn.call a s).1 = Except.error e := by rw [hpure, hr]
        have hs : (fn.call a s).2 = s := by rw [hpure]
        rw [_memorizer_miss_throw stringify fn a c s e hm hv, hs]
        have := ih hinj2 c (fun b hb => hc b (List.mem_cons_of_mem _ hb))
        exact ⟨by rw [this.1]; rfl, this.2⟩
    · rw [_memorizer_hit stringify fn a c s v1 hv1]
      have hga := hc a (List.mem_cons_self _ _) v1 hv1
      have := ih hinj2 c (fun b hb => hc b (List.mem_cons_of_mem _ hb))
      exact ⟨by rw [this.1, hga]; rfl, this.2⟩

/-- C8: let `fn` be referentially transparent (its outcome `g args` depends on the
arguments only and it leaves the world alone), and let the argument lists of a sequence
of calls serialise to distinct keys whenever they are distinct.  Then every call of the
sequence on a fresh `memorizer(fn)` instance has exactly the outcome of `fn` on its
arguments, whatever was called before, and the world is left as it was. -/
theorem memorizer_transparent {σ E V : Type} (stringify : List V → String)
    (fn : JsFn σ E V) (g : List V → Except (JsError E) V)
    (hpure : ∀ args s, fn.call args s = (g args, s))
    (calls : List (List V))
    (hinj : ∀ a ∈ calls, ∀ b ∈ calls, stringify a = stringify b → a = b) (s : σ) :
    (callAll (_memorizer stringify fn) calls (memorizer, s)).1
        = calls.map (fun a => (g a).map some)
      ∧ (callAll (_memorizer stringify fn) calls (memorizer, s)).2.2 = s :=
  callAll_pure stringify fn g hpure calls hinj memorizer s (by
    intro a _ v h
    simp [memorizer, newMap, Cache.get] at h)

theorem memorizer_transparent_witness :
    (∀ args s, (add2 : JsFn Unit Unit TestVal).call args s
        = (Except.ok ((param args 0).add (param args 1)), s))
      ∧ (∀ a ∈ [[TestVal.num 1, TestVal.num 2], [TestVal.num 2, TestVal.num 3],
                [TestVal.num 1, TestVal.num 2]],
          ∀ b ∈ [[TestVal.num 1, TestVal.num 2], [TestVal.num 2, TestVal.num 3],
                 [TestVal.num 1, TestVal.num 2]],
          jsonArgs a = jsonArgs b → a = b)
      ∧ (callAll (_memorizer jsonArgs (add2 : JsFn Unit Unit TestVal))
            [[TestVal.num 1, TestVal.num 2], [TestVal.num 2, TestVal.num 3],
             [TestVal.num 1, TestVal.num 2]] (memorizer, ())).1
          = [Except.ok (some (TestVal.num 3)), Except.ok (some (TestVal.num 5)),
             Except.ok (some (TestVal.num 3))] :=
  ⟨fun _ _ => rfl, by decide,
   (memorizer_transparent jsonArgs add2
      (fun args => Except.ok ((param args 0).add (param args 1)))
      (fun _ _ => rfl) _ (by decide) ()).1⟩

/-! ## debounce -/

theorem Debounce.executer_quiet {σ V : Type} (delay : Nat) (args : List V)
    (d : Debounce σ V)
    (hq : d.host.pending = []
      ∨ ∃ t, d.host.pending = [t] ∧ d.timer = some t.id ∧ t.id ≠ 0) :
    Debounce.executer delay args d
      = { host := { now := d.host.now, nextId := d.host.nextId + 1,
                    pending := [{ id := d.host.nextId, due := d.host.now + delay,
                                  payload := args }] },
          timer := some d.host.nextId, world := d.world } := by
  rcases d with ⟨⟨now, nextId, pending⟩, timer, world⟩
  simp only at hq
  rcases hq with h | ⟨t, h, ht, hne⟩
  · subst h
    cases timer with
    | none => simp [Debounce.executer, truthy, setTimeout]
    | some id =>
      by_cases hz : id = 0 <;> simp [Debounce.executer, truthy, setTimeout, clearTimeout, hz]
  · subst h
    subst ht
    simp [Debounce.executer, truthy, setTimeout, clearTimeout, hne]

theorem Debounce.elapse_before {σ E V : Type} (fn : JsFn σ E V) (dt : Nat)
    (d : Debounce σ V) (t : Timer (List V)) (hp : d.host.pending = [t])
    (hlt : d.host.now + dt < t.due) :
    Debounce.elapse fn dt d
      = { host := { now := d.host.now + dt, nextId := d.host.nextId, pending := [t] },
          timer := d.timer, world := d.world } := by
  have h1 : ¬ t.due ≤ d.host.now + dt := by omega
  simp [Debounce.elapse, dueBy, hp, h1, hlt]

theorem Debounce.elapse_due {σ E V : Type} (fn : JsFn σ E V) (dt : Nat)
    (d : Debounce σ V) (t : Timer (List V)) (hp : d.host.pending = [t])
    (hle : t.due ≤ d.host.now + dt) :
    Debounce.elapse fn dt d
      = Debounce.fire fn
          { host := { now := d.host.now + dt, nextId := d.host.nextId, pending := [] },
            timer := d.timer, world := d.world } t := by
  simp [Debounce.elapse, dueBy, hp, hle, insertByDue]

theorem Debounce.run_append {σ E V : Type} (fn : JsFn σ E V) (delay : Nat)
    (d : Debounce σ V) (es1 es2 : List (Event V)) :
    Debounce.run fn delay d (es1 ++ es2)
      = Debounce.run fn delay (Debounce.run fn delay d es1) es2 := by
  simp [Debounce.run, List.foldl_append]

/-- During a burst nothing fires, and after its last call exactly one timer is armed:
the one of that call, due a full delay later. -/
theorem Debounce.run_burst {σ E V : Type} (fn : JsFn σ E V) (delay : Nat)
    (earlier : List (List V × Nat)) (last : List V) (d : Debounce σ V)
    (hid : 0 < d.host.nextId)
    (hq : d.host.pending = []
      ∨ ∃ t, d.host.pending = [t] ∧ d.timer = some t.id ∧ t.id ≠ 0)
    (hgap : ∀ c ∈ earlier, c.2 < delay) :
    (Debounce.run fn delay d (burst earlier last)).world = d.world
      ∧ ∃ id, id ≠ 0
          ∧ (Debounce.run fn delay d (burst earlier last)).timer = some id
          ∧ (Debounce.run fn delay d (burst earlier last)).host.pending
            = [{ id := id,
                 due := (Debounce.run fn delay d (burst earlier last)).host.now + delay,
                 payload := last }] := by
  induction earlier generalizing d with
  | nil =>
    simp only [burst, List.flatMap_nil, List.nil_append, Debounce.run, List.foldl_cons,
      List.foldl_nil, Debounce.step]
    rw [Debounce.executer_quiet delay last d hq]
    exact ⟨rfl, d.host.nextId, by omega, rfl, rfl⟩
  | cons c rest ih =>
    have hc : c.2 < delay := hgap c (List.mem_cons_self _ _)
    have hrest : ∀ x ∈ rest, x.2 < delay := fun x hx => hgap x (List.mem_cons_of_mem _ hx)
    have hb : burst (c :: rest) last
        = [Event.call c.1, Event.elapse c.2] ++ burst rest last := by
      simp [burst, List.flatMap_cons]
    rw [hb, Debounce.run_append]
    have h1 : Debounce.run fn delay d [Event.call c.1, Event.elapse c.2]
        = { host := { now := d.host.now + c.2, nextId := d.host.nextId + 1,
                      pending := [{ id := d.host.nextId, due := d.host.now + delay,
                                    payload := c.1 }] },
            timer := some d.host.nextId, world := d.world } := by
      simp only [Debounce.run, List.foldl_cons, List.foldl_nil, Debounce.step]
      rw [Debounce.executer_quiet delay c.1 d hq]
      rw [Debounce.elapse_before fn c.2 _ _ rfl (Nat.add_lt_add_left hc _)]
    rw [h1]
    exact ih _ (Nat.succ_pos _)
      (Or.inr ⟨{ id := d.host.nextId, due := d.host.now + delay, payload := c.1 },
        rfl, rfl, Nat.pos_iff_ne_zero.mp hid⟩) hrest

/-- A burst on an instance with at most one timer armed, then `q` milliseconds. -/
theorem Debounce.burst_then_quiet {σ E V : Type} (fn : JsFn σ E V) (delay : Nat)
    (d : Debounce σ V) (earlier : List (List V × Nat)) (last : List V) (q : Nat)
    (hd : Debounce.AtMostOne d) (hgap : ∀ c ∈ earlier, c.2 < delay) :
    (q < delay →
        (Debounce.run fn delay d (burst earlier last ++ [Event.elapse q])).world = d.world)
      ∧ (delay ≤ q →
          (Debounce.run fn delay d (burst earlier last ++ [Event.elapse q])).world
              = (fn.call last d.world).2
            ∧ (Debounce.run fn delay d
                (burst earlier last ++ [Event.elapse q])).host.pending = []) := by
  obtain ⟨hw, id, hne, htimer, hpend⟩ :=
    Debounce.run_burst fn delay earlier last d hd.1 hd.2 hgap
  rw [Debounce.run_append]
  generalize Debounce.run fn delay d (burst earlier last) = d1 at hw htimer hpend
  simp only [Debounce.run, List.foldl_cons, List.foldl_nil, Debounce.step]
  constructor
  · intro hq
    rw [Debounce.elapse_before fn q d1 _ hpend (by simp only; omega)]
    exact hw
  · intro hq
    rw [Debounce.elapse_due fn q d1 _ hpend (by simp only; omega)]
    simp only [Debounce.fire, hw]
    rcases fn.call last d.world with ⟨r, w⟩
    cases r <;> exact ⟨rfl, rfl⟩

theorem Debounce.atMostOne_step {σ E V : Type} (fn : JsFn σ E V) (delay : Nat)
    (d : Debounce σ V) (e : Event V) (hd : Debounce.AtMostOne d) :
    Debounce.AtMostOne (Debounce.step fn delay d e) := by
  obtain ⟨hid, hq⟩ := hd
  cases e with
  | call args =>
    simp only [Debounce.step]
    rw [Debounce.executer_quiet delay args d hq]
    exact ⟨Nat.succ_pos _,
      Or.inr ⟨{ id := d.host.nextId, due := d.host.now + delay, payload := args },
        rfl, rfl, Nat.pos_iff_ne_zero.mp hid⟩⟩
  | cancel =>
    refine ⟨by cases ht : d.timer <;> simpa [Debounce.step, Debounce.cancel, clearTimeout, ht]
      using hid, Or.inl ?_⟩
    rcases hq with h | ⟨t, h, ht, _⟩
    · cases ht : d.timer <;> simp [Debounce.step, Debounce.cancel, clearTimeout, ht, h]
    · simp [Debounce.step, Debounce.cancel, clearTimeout, ht, h]
  | elapse dt =>
    simp only [Debounce.step]
    rcases hq with h | ⟨t, h, ht, hne⟩
    · have : Debounce.elapse fn dt d
          = { host := { now := d.host.now + dt, nextId := d.host.nextId, pending := [] },
              timer := d.timer, world := d.world } := by
        simp [Debounce.elapse, dueBy, h]
      rw [this]
      exact ⟨hid, Or.inl rfl⟩
    · by_cases hdue : t.due ≤ d.host.now + dt
      · rw [Debounce.elapse_due fn dt d t h hdue]
        simp only [Debounce.fire]
        rcases fn.call t.payload d.world with ⟨r, w⟩
        cases r <;> exact ⟨hid, Or.inl rfl⟩
      · rw [Debounce.elapse_before fn dt d t h (by omega)]
        exact ⟨hid, Or.inr ⟨t, rfl, ht, hne⟩⟩

theorem Debounce.atMostOne_run {σ E V : Type} (fn : JsFn σ E V) (delay : Nat)
    (events : List (Event V)) (d : Debounce σ V) (hd : Debounce.AtMostOne d) :
    Debounce.AtMostOne (Debounce.run fn delay d events) := by
  induction events generalizing d with
  | nil => exact hd
  | cons e rest ih =>
    exact ih _ (Debounce.atMostOne_step fn delay d e hd)

/-- C10: take a `debounce(fn, delay)` instance after any history of calls, cancellations
and waiting, make a burst of calls in which every call comes less than `delay` after the
one before, with no `cancel`, and then let `q` milliseconds pass.  While `q < delay` the
recording `fn` has not been invoked since the burst began (record and world are as
before it; taking a shorter burst, the same holds at every moment during the burst).
Once `q ≥ delay` it has been invoked exactly once, with the arguments of the last call
of the burst, and no timer is left armed, so nothing more fires however long one waits. -/
theorem debounce_fires_once_after_quiet {σ E V : Type} (f : JsFn σ E V) (delay : Nat)
    (now issued : Nat) (w0 : σ × List (List V)) (history : List (Event V))
    (earlier : List (List V × Nat)) (last : List V) (q : Nat)
    (hgap : ∀ c ∈ earlier, c.2 < delay) :
    (q < delay →
        (Debounce.run (spy f) delay (debounce (Host.start now issued) w0)
            (history ++ burst earlier last ++ [Event.elapse q])).world
          = (Debounce.run (spy f) delay (debounce (Host.start now issued) w0) history).world)
      ∧ (delay ≤ q →
          (Debounce.run (spy f) delay (debounce (Host.start now issued) w0)
              (history ++ burst earlier last ++ [Event.elapse q])).world
            = ((f.call last (Debounce.run (spy f) delay
                  (debounce (Host.start now issued) w0) history).world.1).2,
               (Debounce.run (spy f) delay
                  (debounce (Host.start now issued) w0) history).world.2 ++ [last])
          ∧ (Debounce.run (spy f) delay (debounce (Host.start now issued) w0)
              (history ++ burst earlier last ++ [Event.elapse q])).host.pending = []) := by
  have hd : Debounce.AtMostOne
      (Debounce.run (spy f) delay (debounce (Host.start now issued) w0) history) :=
    Debounce.atMostOne_run (spy f) delay history _ ⟨Nat.succ_pos _, Or.inl rfl⟩
  have h := Debounce.burst_then_quiet (spy f) delay _ earlier last q hd hgap
  rw [List.append_assoc, Debounce.run_append]
  exact h

theorem debounce_fires_once_after_quiet_witness :
    (∀ c ∈ [([TestVal.num 1], 100), ([TestVal.num 2], 299)], c.2 < 300)
      ∧ (Debounce.run (spy (add2 : JsFn Unit Unit TestVal)) 300
          (debounce (Host.start 0 0) ((), []))
          ([Event.call [TestVal.num 0], Event.cancel, Event.elapse 1000]
            ++ burst [([TestVal.num 1], 100), ([TestVal.num 2], 299)] [TestVal.num 3]
            ++ [Event.elapse 299])).world = ((), [])
      ∧ (Debounce.run (spy (add2 : JsFn Unit Unit TestVal)) 300
          (debounce (Host.start 0 0) ((), []))
          ([Event.call [TestVal.num 0], Event.cancel, Event.elapse 1000]
            ++ burst [([TestVal.num 1], 100), ([TestVal.num 2], 299)] [TestVal.num 3]
            ++ [Event.elapse 300])).world = ((), [[TestVal.num 3]]) :=
  ⟨by decide,
   (debounce_fires_once_after_quiet add2 300 0 0 ((), [])
      [Event.call [TestVal.num 0], Event.cancel, Event.elapse 1000]
      [([TestVal.num 1], 100), ([TestVal.num 2], 299)] [TestVal.num 3] 299
      (by decide)).1 (by decide),
   ((debounce_fires_once_after_quiet add2 300 0 0 ((), [])
      [Event.call [TestVal.num 0], Event.cancel, Event.elapse 1000]
      [([TestVal.num 1], 100), ([TestVal.num 2], 299)] [TestVal.num 3] 300
      (by decide)).2 (by decide)).1⟩

/-! ## pipe: nesting and the empty sequence -/

theorem thread_append {σ E V : Type} (fs gs : List (JsFn σ E V)) (v : V) :
    thread (fs ++ gs) v = effBind (thread fs v) (thread gs) := by
  induction fs generalizing v with
  | nil => rfl
  | cons f rest ih =>
    simp only [List.cons_append, thread, effBind_assoc]
    exact effBind_congr _ ih

theorem pipeCall_single {σ E V : Type} (gs : List (JsFn σ E V)) (v : V) :
    pipeCall (gs.map JsVal.fn) [v] = thread gs v :=
  pipe_thread gs v

theorem pipeCall_nested {σ E V : Type} (f : JsFn σ E V) (rest gs : List (JsFn σ E V))
    (args : List V) :
    pipeCall [JsVal.fn { length := 0, call := pipeCall ((f :: rest).map JsVal.fn) },
              JsVal.fn { length := 0, call := pipeCall (gs.map JsVal.fn) }] args
      = pipeCall ((f :: rest ++ gs).map JsVal.fn) args := by
  have h1 := pipeCall_fns
    ({ length := 0, call := pipeCall ((f :: rest).map JsVal.fn) } : JsFn σ E V)
    [{ length := 0, call := pipeCall (gs.map JsVal.fn) }] args
  have h2 := pipeCall_fns f (rest ++ gs) args
  simp only [List.map_cons, List.map_nil, List.cons_append] at h1 h2 ⊢
  rw [h1, h2]
  simp only [nestedCalls, thread]
  have h3 := pipeCall_fns f rest args
  simp only [List.map_cons] at h3
  rw [h3, nestedCalls, effBind_assoc]
  refine effBind_congr _ (fun a => ?_)
  rw [thread_append]
  refine effBind_congr _ (fun b => ?_)
  rw [pipeCall_single, effBind_pure]

/-- C19: for functions `fs = f :: rest` (non-empty) and `gs` (possibly empty), building
`pipe(pipe(...fs), pipe(...gs))` and calling it with `args` is the same computation as
building `pipe(...fs, ...gs)` and calling it with `args`; the piping functions agree on
every argument list.  In particular `pipe(pipe(f, g), h)`, `pipe(f, pipe(g, h))` and
`pipe(f, g, h)` agree on every input. -/
theorem pipe_flattens {σ E V : Type} (f : JsFn σ E V) (rest gs : List (JsFn σ E V))
    (args : List V) :
    effBind (pipe ((f :: rest).map JsVal.fn)) (fun p1 =>
        effBind (pipe (gs.map JsVal.fn)) (fun p2 =>
          effBind (pipe [JsVal.fn p1, JsVal.fn p2]) (fun p => p.call args)))
        = effBind (pipe ((f :: rest ++ gs).map JsVal.fn)) (fun p => p.call args)
      ∧ pipeCall [JsVal.fn { length := 0, call := pipeCall ((f :: rest).map JsVal.fn) },
                  JsVal.fn { length := 0, call := pipeCall (gs.map JsVal.fn) }] args
        = pipeCall ((f :: rest ++ gs).map JsVal.fn) args
      ∧ (∀ g h : JsFn σ E V,
          pipeCall [JsVal.fn { length := 0, call := pipeCall [JsVal.fn f, JsVal.fn g] },
                    JsVal.fn h] args
              = pipeCall [JsVal.fn f, JsVal.fn g, JsVal.fn h] args
            ∧ pipeCall [JsVal.fn f,
                        JsVal.fn { length := 0, call := pipeCall [JsVal.fn g, JsVal.fn h] }] args
              = pipeCall [JsVal.fn f, JsVal.fn g, JsVal.fn h] args) := by
  refine ⟨?_, pipeCall_nested f rest gs args, ?_⟩
  · funext s
    have e1 : pipe ((f :: rest).map JsVal.fn) = effPure
        { length := 0, call := pipeCall ((f :: rest).map JsVal.fn) } :=
      funext (pipe_fns (f :: rest))
    have e2 : pipe (gs.map JsVal.fn) = effPure
        { length := 0, call := pipeCall (gs.map JsVal.fn) } :=
      funext (pipe_fns gs)
    have e3 : pipe ((f :: rest ++ gs).map JsVal.fn) = effPure
        { length := 0, call := pipeCall ((f :: rest ++ gs).map JsVal.fn) } :=
      funext (pipe_fns (f :: rest ++ gs))
    have e4 : ∀ p1 p2 : JsFn σ E V, pipe [JsVal.fn p1, JsVal.fn p2] = effPure
        { length := 0, call := pipeCall [JsVal.fn p1, JsVal.fn p2] } :=
      fun p1 p2 => funext (pipe_fns [p1, p2])
    rw [e1, e2, e3]
    simp only [effPure_bind, e4]
    exact congrFun (pipeCall_nested f rest gs args) s
  · intro g h
    constructor
    · have h1 := pipeCall_fns
        ({ length := 0, call := pipeCall [JsVal.fn f, JsVal.fn g] } : JsFn σ E V) [h] args
      have h2 := pipeCall_fns f [g, h] args
      have h3 := pipeCall_fns f [g] args
      simp only [List.map_cons, List.map_nil] at h1 h2 h3
      rw [h1, h2]
      simp only [nestedCalls, thread]
      rw [h3]
      simp only [nestedCalls, thread, effBind_assoc, effPure_bind]
    · have h1 := pipeCall_fns f
        [({ length := 0, call := pipeCall [JsVal.fn g, JsVal.fn h] } : JsFn σ E V)] args
      have h2 := pipeCall_fns f [g, h] args
      simp only [List.map_cons, List.map_nil] at h1 h2
      rw [h1, h2]
      simp only [nestedCalls, thread]
      refine effBind_congr _ (fun a => ?_)
      have h3 := pipeCall_fns g [h] [a]
      simp only [List.map_cons, List.map_nil] at h3
      rw [h3]
      simp only [nestedCalls, thread, effBind_assoc, effPure_bind]

/-- C20: `pipe()` on the empty sequence constructs without throwing and without
touching the world, and the function it returns, called with at least one argument,
returns the first argument as it is, whatever the remaining arguments are. -/
theorem pipe_empty_returns_first {σ E V : Type} (a : V) (rest : List V) (s : σ) :
    pipe ([] : List (JsVal σ E V)) s
        = (Except.ok { length := 0, call := pipeCall [] }, s)
      ∧ pipeCall ([] : List (JsVal σ E V)) (a :: rest) s = (Except.ok a, s) := by
  refine ⟨rfl, ?_⟩
  have h : ∀ (xs : List V) (acc : V),
      reduceInit (fun (item : V) (_ : V) => (effPure item : Eff σ E V)) xs acc s
        = (Except.ok acc, s) := by
    intro xs
    induction xs with
    | nil => intro acc; rfl
    | cons x xs ih => intro acc; simp only [reduceInit, effPure_bind]; exact ih acc
  simp only [pipeCall, reduceInit, effPure_bind, reduceNoInit]
  exact h rest a

/-! ## debounce: cancellation -/

theorem Debounce.cancel_clears {σ V : Type} (d : Debounce σ V)
    (hd : Debounce.AtMostOne d) :
    (Debounce.cancel d).host.pending = [] ∧ (Debounce.cancel d).world = d.world := by
  refine ⟨?_, rfl⟩
  rcases hd.2 with h | ⟨t, h, ht, _⟩
  · cases ht : d.timer <;> simp [Debounce.cancel, clearTimeout, ht, h]
  · simp [Debounce.cancel, clearTimeout, ht, h]

theorem Debounce.step_idle {σ E V : Type} (fn : JsFn σ E V) (delay : Nat)
    (d : Debounce σ V) (e : Event V) (hp : d.host.pending = [])
    (he : ∀ a, e ≠ Event.call a) :
    (Debounce.step fn delay d e).host.pending = []
      ∧ (Debounce.step fn delay d e).world = d.world := by
  cases e with
  | call a => exact absurd rfl (he a)
  | cancel =>
    cases ht : d.timer <;> simp [Debounce.step, Debounce.cancel, clearTimeout, ht, hp]
  | elapse dt => simp [Debounce.step, Debounce.elapse, dueBy, hp]

theorem Debounce.run_idle {σ E V : Type} (fn : JsFn σ E V) (delay : Nat)
    (later : List (Event V)) (d : Debounce σ V) (hp : d.host.pending = [])
    (hl : ∀ e ∈ later, ∀ a, e ≠ Event.call a) :
    (Debounce.run fn delay d later).host.pending = []
      ∧ (Debounce.run fn delay d later).world = d.world := by
  induction later generalizing d with
  | nil => exact ⟨hp, rfl⟩
  | cons e rest ih =>
    have h1 := Debounce.step_idle fn delay d e hp (hl e (List.mem_cons_self _ _))
    have h2 := ih (Debounce.step fn delay d e) h1.1
      (fun x hx => hl x (List.mem_cons_of_mem _ hx))
    exact ⟨h2.1, h2.2.trans h1.2⟩

/-- C11: take a `debounce(fn, delay)` instance after any history of calls, cancellations
and waiting (a timer may be armed or not) and call `cancel`.  Whatever follows that is
not a call, and however much time passes, the recording `fn` is not invoked and no timer
is armed.  A call made after that behaves as a call on an idle instance: `fn` is not
invoked while less than `delay` has passed since the call, and once `delay` has passed
it has been invoked exactly once, with the arguments of that call.  Example: a call,
200 ms, `cancel`, then any wait gives no invocation. -/
theorem debounce_cancel_prevents_firing {σ E V : Type} (f : JsFn σ E V) (delay : Nat)
    (now issued : Nat) (w0 : σ × List (List V)) (history later : List (Event V))
    (args : List V) (q : Nat) (hl : ∀ e ∈ later, ∀ a, e ≠ Event.call a) :
    (Debounce.run (spy f) delay (debounce (Host.start now issued) w0)
        (history ++ Event.cancel :: later)).world
        = (Debounce.run (spy f) delay (debounce (Host.start now issued) w0) history).world
      ∧ (Debounce.run (spy f) delay (debounce (Host.start now issued) w0)
          (history ++ Event.cancel :: later)).host.pending = []
      ∧ (q < delay →
          (Debounce.run (spy f) delay (debounce (Host.start now issued) w0)
              (history ++ Event.cancel :: later ++ [Event.call args, Event.elapse q])).world
            = (Debounce.run (spy f) delay (debounce (Host.start now issued) w0) history).world)
      ∧ (delay ≤ q →
          (Debounce.run (spy f) delay (debounce (Host.start now issued) w0)
              (history ++ Event.cancel :: later ++ [Event.call args, Event.elapse q])).world
            = ((f.call args (Debounce.run (spy f) delay
                  (debounce (Host.start now issued) w0) history).world.1).2,
               (Debounce.run (spy f) delay
                  (debounce (Host.start now issued) w0) history).world.2 ++ [args])
          ∧ (Debounce.run (spy f) delay (debounce (Host.start now issued) w0)
              (history ++ Event.cancel :: later
                ++ [Event.call args, Event.elapse q])).host.pending = [])
      ∧ (∀ wait : Nat,
          (Debounce.run (spy (add2 : JsFn Unit Unit TestVal)) 300
              (debounce (Host.start 0 0) ((), []))
              [Event.call [TestVal.num 1], Event.elapse 200, Event.cancel,
               Event.elapse wait]).world = ((), [])) := by
  have hd : Debounce.AtMostOne
      (Debounce.run (spy f) delay (debounce (Host.start now issued) w0) history) :=
    Debounce.atMostOne_run (spy f) delay history _ ⟨Nat.succ_pos _, Or.inl rfl⟩
  simp only [Debounce.run_append]
  generalize Debounce.run (spy f) delay (debounce (Host.start now issued) w0) history
    = d at hd
  have hc := Debounce.cancel_clears d hd
  have hcons : ∀ es : List (Event V),
      Debounce.run (spy f) delay d (Event.cancel :: es)
        = Debounce.run (spy f) delay (Debounce.cancel d) es := fun _ => rfl
  have hi := Debounce.run_idle (spy f) delay later (Debounce.cancel d) hc.1 hl
  have hd2 : Debounce.AtMostOne
      (Debounce.run (spy f) delay (Debounce.cancel d) later) :=
    Debounce.atMostOne_run (spy f) delay later _
      (Debounce.atMostOne_step (spy f) delay d Event.cancel hd)
  have hb := Debounce.burst_then_quiet (spy f) delay _ [] args q hd2
    (fun c hc => absurd hc (List.not_mem_nil c))
  have hburst : burst ([] : List (List V × Nat)) args ++ [Event.elapse q]
      = [Event.call args, Event.elapse q] := rfl
  rw [hburst] at hb
  rw [hcons]
  refine ⟨hi.2.trans hc.2, hi.1, ?_, ?_, ?_⟩
  · intro hq
    rw [hb.1 hq, hi.2, hc.2]
  · intro hq
    obtain ⟨h1, h2⟩ := hb.2 hq
    refine ⟨?_, h2⟩
    rw [h1, hi.2, hc.2]
    rfl
  · intro wait
    exact (Debounce.step_idle (spy (add2 : JsFn Unit Unit TestVal)) 300
      (Debounce.run (spy add2) 300 (debounce (Host.start 0 0) ((), []))
        [Event.call [TestVal.num 1], Event.elapse 200, Event.cancel])
      (Event.elapse wait) rfl (fun a h => by cases h)).2

theorem debounce_cancel_prevents_firing_witness :
    (∀ e ∈ [(Event.elapse 1000 : Event TestVal), Event.cancel],
        ∀ a, e ≠ Event.call a)
      ∧ (Debounce.run (spy (add2 : JsFn Unit Unit TestVal)) 300
          (debounce (Host.start 0 0) ((), []))
          ([Event.call [TestVal.num 1], Event.elapse 299]
            ++ Event.cancel :: [Event.elapse 1000, Event.cancel])).world = ((), [])
      ∧ (Debounce.run (spy (add2 : JsFn Unit Unit TestVal)) 300
          (debounce (Host.start 0 0) ((), []))
          ([Event.call [TestVal.num 1], Event.elapse 299]
            ++ Event.cancel :: [Event.elapse 1000, Event.cancel]
            ++ [Event.call [TestVal.num 2], Event.elapse 300])).world
          = ((), [[TestVal.num 2]]) :=
  ⟨by
    intro e he a h
    subst h
    simp at he,
   (debounce_cancel_prevents_firing add2 300 0 0 ((), [])
      [Event.call [TestVal.num 1], Event.elapse 299] [Event.elapse 1000, Event.cancel]
      [TestVal.num 2] 300
      (by
        intro e he a h
        subst h
        simp at he)).1,
   ((debounce_cancel_prevents_firing add2 300 0 0 ((), [])
      [Event.call [TestVal.num 1], Event.elapse 299] [Event.elapse 1000, Event.cancel]
      [TestVal.num 2] 300
      (by
        intro e he a h
        subst h
        simp at he)).2.2.2.1 (by decide)).1⟩

/-! ## reverse -/

theorem intercalate_go_length (sep acc : String) (parts : List String)
    (h : ∀ p ∈ parts, p.length = 1) :
    (String.intercalate.go acc sep parts).length
      = acc.length + parts.length * (sep.length + 1) := by
  induction parts generalizing acc with
  | nil => simp [String.intercalate.go]
  | cons p rest ih =>
    have hp : p.length = 1 := h p (List.mem_cons_self _ _)
    rw [String.intercalate.go, ih _ (fun x hx => h x (List.mem_cons_of_mem _ hx))]
    simp only [String.length_append, hp, List.length_cons]
    rw [Nat.succ_mul]
    omega

theorem join_length (parts : List String) (h : ∀ p ∈ parts, p.length = 1) :
    (join parts).length = 2 * parts.length - 1 := by
  cases parts with
  | nil => rfl
  | cons p rest =>
    have hp : p.length = 1 := h p (List.mem_cons_self _ _)
    have hsep : (",".length : Nat) = 1 := rfl
    show (String.intercalate.go p "," rest).length = _
    rw [intercalate_go_length _ _ _ (fun x hx => h x (List.mem_cons_of_mem _ hx)), hp, hsep]
    simp only [List.length_cons]
    omega

theorem spread_reverse_ones (s : String) : ∀ p ∈ (spread s).reverse, p.length = 1 := by
  intro p hp
  simp only [spread, List.mem_reverse, List.mem_map] at hp
  obtain ⟨c, _, hc⟩ := hp
  rw [← hc]
  rfl

theorem reversed_length (s : String) :
    (join (spread s).reverse).length = 2 * s.length - 1 := by
  rw [join_length _ (spread_reverse_ones s), List.length_reverse]
  simp only [spread, List.length_map]
  cases s
  rfl

/-- C15: for an array `xs` of length `n`, `reverse` returns without throwing an array of
length `n` whose element at index `i` is the element of `xs` at index `n - 1 - i`; for
example `reverse([1, 2, 3])` is `[3, 2, 1]`.  It throws a `TypeError` exactly when its
argument is neither an array nor a string. -/
theorem reverse_array_mirrors {σ E V : Type} (xs : List V) (w : σ) :
    (reverse (Sequence.array xs) w : Except (JsError E) (Sequence V) × σ)
        = (Except.ok (Sequence.array xs.reverse), w)
      ∧ xs.reverse.length = xs.length
      ∧ (∀ i, i < xs.length → xs.reverse[i]? = xs[xs.length - 1 - i]?)
      ∧ (∀ x : Sequence V,
          (∃ msg, ((reverse x w : Except (JsError E) (Sequence V) × σ)).1
              = Except.error (JsError.typeError msg))
            ↔ ((∀ ys, x ≠ Sequence.array ys) ∧ (∀ str, x ≠ Sequence.string str)))
      ∧ (reverse (Sequence.array [TestVal.num 1, TestVal.num 2, TestVal.num 3]) ()
          : Except (JsError Unit) (Sequence TestVal) × Unit)
        = (Except.ok (Sequence.array [TestVal.num 3, TestVal.num 2, TestVal.num 1]), ()) := by
  refine ⟨rfl, List.length_reverse xs, fun i hi => List.getElem?_reverse hi, ?_, rfl⟩
  intro x
  cases x with
  | array ys =>
    constructor
    · rintro ⟨msg, h⟩
      simp [reverse, effPure] at h
    · rintro ⟨h, _⟩
      exact absurd rfl (h ys)
  | string str =>
    constructor
    · rintro ⟨msg, h⟩
      simp [reverse, effPure] at h
    · rintro ⟨_, h⟩
      exact absurd rfl (h str)
  | other v =>
    constructor
    · intro _
      exact ⟨fun ys h => (by cases h), fun str h => (by cases h)⟩
    · intro _
      exact ⟨_, rfl⟩

theorem reverse_array_mirrors_witness :
    (1 < [TestVal.num 1, TestVal.num 2, TestVal.num 3].length)
      ∧ [TestVal.num 1, TestVal.num 2, TestVal.num 3].reverse[1]?
        = [TestVal.num 1, TestVal.num 2, TestVal.num 3][3 - 1 - 1]? :=
  ⟨by decide,
   (reverse_array_mirrors (σ := Unit) (E := Unit)
      [TestVal.num 1, TestVal.num 2, TestVal.num 3] ()).2.2.1 1 (by decide)⟩

/-- C16: for a string `s`, `reverse` returns the characters of `s` in reverse order
joined by commas (`reverse("abc")` is `"c,b,a"`, not `"cba"`).  The result is the plain
reversal of `s` exactly when `s` has at most one character, and applying `reverse` to
the result does not give back `s` when `s` has at least two characters. -/
theorem reverse_string_joins_with_commas {σ E V : Type} (s : String) (w : σ) :
    (reverse (Sequence.string s) w : Except (JsError E) (Sequence V) × σ)
        = (Except.ok (Sequence.string
            (",".intercalate ((s.data.map String.singleton).reverse))), w)
      ∧ (join (spread s).reverse = plainReversal s ↔ s.length ≤ 1)
      ∧ (2 ≤ s.length →
          (effBind (reverse (Sequence.string s)) reverse w
              : Except (JsError E) (Sequence V) × σ).1
            ≠ Except.ok (Sequence.string s))
      ∧ (reverse (Sequence.string "abc") ()
          : Except (JsError Unit) (Sequence TestVal) × Unit)
        = (Except.ok (Sequence.string "c,b,a"), ())
      ∧ "c,b,a" ≠ plainReversal "abc" := by
  refine ⟨rfl, ?_, ?_, rfl, by decide⟩
  · constructor
    · intro h
      have hl := congrArg String.length h
      rw [reversed_length] at hl
      simp only [plainReversal, String.length_mk, List.length_reverse] at hl
      have : s.data.length = s.length := rfl
      omega
    · intro h
      rcases s with ⟨cs⟩
      cases cs with
      | nil => rfl
      | cons c rest =>
        cases rest with
        | nil => rfl
        | cons c2 rest2 =>
          simp [String.length] at h
  · intro h hr
    have hstep : (effBind (reverse (Sequence.string s)) reverse w
        : Except (JsError E) (Sequence V) × σ)
        = (Except.ok (Sequence.string
            (join (spread (join (spread s).reverse)).reverse)), w) := rfl
    rw [hstep] at hr
    have he : join (spread (join (spread s).reverse)).reverse = s := by
      simpa using hr
    have hl := congrArg String.length he
    rw [reversed_length, reversed_length] at hl
    omega

theorem reverse_string_joins_with_commas_witness :
    (2 ≤ "ab".length)
      ∧ (effBind (reverse (Sequence.string "ab")) reverse ()
          : Except (JsError Unit) (Sequence TestVal) × Unit).1
        ≠ Except.ok (Sequence.string "ab") :=
  ⟨by decide,
   (reverse_string_joins_with_commas (σ := Unit) (E := Unit) (V := TestVal)
      "ab" ()).2.2.1 (by decide)⟩

/-! ## Maybe -/

theorem Maybe.map_nullish {σ E V : Type} (m : Maybe V) (fn : JsVal σ E (Held V))
    (h : looseUndefined m._value = true) :
    Maybe.map m fn = effPure (Maybe.of Held.null) := by
  simp only [Maybe.map, h, if_true]

theorem Maybe.map_value {σ E V : Type} (m : Maybe V) (fn : JsVal σ E (Held V))
    (h : looseUndefined m._value = false) :
    Maybe.map m fn = effBind (callVal fn [m._value]) (fun r => effPure (Maybe.of r)) := by
  have hne : ¬ (looseUndefined m._value = true) := by rw [h]; simp
  simp only [Maybe.map, if_neg hne]

/-- C17: when the value held by `m` is `null` or `undefined`, `m.map(f)` is a `Maybe`
holding `null` and `f` is not invoked (world and record are untouched); otherwise
`m.map(f)` is one call `f(value)`, wrapped in a `Maybe` when it returns.  The receiver
is not changed.  Examples: `Maybe.of(null).map(x => x + 2)` is `Maybe.of(null)` and
`Maybe.of(2).map(x => x * 2)` is `Maybe.of(4)`. -/
theorem maybe_map_short_circuits {σ E V : Type} (m : Maybe V) (f : JsFn σ E (Held V))
    (s : σ) (log : List (List (Held V))) :
    (looseUndefined m._value = true ↔ (m._value = Held.null ∨ m._value = Held.undefined))
      ∧ (looseUndefined m._value = true →
          Maybe.map m (JsVal.fn f) s = (Except.ok (Maybe.of Held.null), s)
            ∧ Maybe.map m (JsVal.fn (spy f)) (s, log)
              = (Except.ok (Maybe.of Held.null), (s, log)))
      ∧ (looseUndefined m._value = false →
          Maybe.map m (JsVal.fn f) s
              = ((f.call [m._value] s).1.map Maybe.of, (f.call [m._value] s).2)
            ∧ Maybe.map m (JsVal.fn (spy f)) (s, log)
              = ((f.call [m._value] s).1.map Maybe.of,
                 ((f.call [m._value] s).2, log ++ [[m._value]])))
      ∧ (Maybe.map (Maybe.of Held.null) (JsVal.fn (plusTwo : JsFn Unit Unit (Held TestVal))) ()
          = (Except.ok (Maybe.of Held.null), ()))
      ∧ (Maybe.map (Maybe.of (Held.val (TestVal.num 2)))
            (JsVal.fn (timesTwo : JsFn Unit Unit (Held TestVal))) ()
          = (Except.ok (Maybe.of (Held.val (TestVal.num 4))), ())) := by
  refine ⟨?_, ?_, ?_, rfl, rfl⟩
  · cases m._value <;> simp [looseUndefined]
  · intro h
    simp only [Maybe.map, h, if_true]
    exact ⟨rfl, rfl⟩
  · intro h
    have hne : ¬ (looseUndefined m._value = true) := by rw [h]; simp
    simp only [Maybe.map, if_neg hne, callVal]
    exact ⟨effBind_pure_apply _ _ _, effBind_pure_apply _ _ _⟩

theorem maybe_map_short_circuits_witness :
    looseUndefined (Maybe.of (Held.val (TestVal.num 2)))._value = false
      ∧ Maybe.map (Maybe.of (Held.val (TestVal.num 2)))
          (JsVal.fn (spy (timesTwo : JsFn Unit Unit (Held TestVal)))) ((), [])
        = (Except.ok (Maybe.of (Held.val (TestVal.num 4))),
           ((), [[Held.val (TestVal.num 2)]]))
      ∧ Maybe.map (Maybe.of Held.undefined)
          (JsVal.fn (spy (timesTwo : JsFn Unit Unit (Held TestVal)))) ((), [])
        = (Except.ok (Maybe.of Held.null), ((), [])) :=
  ⟨rfl,
   ((maybe_map_short_circuits (Maybe.of (Held.val (TestVal.num 2)))
      (timesTwo : JsFn Unit Unit (Held TestVal)) () []).2.2.1 rfl).2,
   ((maybe_map_short_circuits (Maybe.of Held.undefined)
      (timesTwo : JsFn Unit Unit (Held TestVal)) () []).2.1 rfl).2⟩

/-- C18: let `f`, whenever it returns on an argument that is neither `null` nor
`undefined`, return a value that is neither.  Then for every `Maybe` `m` and every `g`,
`m.map(f).map(g)` is the same computation as `m.map(x => g(f(x)))`.  Without the
condition on `f` the two can differ: with `f = x => null` and `g = x => 5`,
`Maybe.of(1).map(f).map(g)` holds `null` while `Maybe.of(1).map(x => g(f(x)))` holds 5. -/
theorem maybe_map_composition {σ E V : Type} (m : Maybe V) (f g : JsFn σ E (Held V))
    (hf : ∀ x s y, looseUndefined x = false → (f.call [x] s).1 = Except.ok y →
      looseUndefined y = false) :
    effBind (Maybe.map m (JsVal.fn f)) (fun m1 => Maybe.map m1 (JsVal.fn g))
        = Maybe.map m (JsVal.fn (composed f g))
      ∧ (effBind (Maybe.map (Maybe.of (Held.val (TestVal.num 1)))
            (JsVal.fn (alwaysNull : JsFn Unit Unit (Held TestVal))))
            (fun m1 => Maybe.map m1 (JsVal.fn alwaysFive)) ()
          = (Except.ok (Maybe.of Held.null), ()))
      ∧ (Maybe.map (Maybe.of (Held.val (TestVal.num 1)))
            (JsVal.fn (composed (alwaysNull : JsFn Unit Unit (Held TestVal)) alwaysFive)) ()
          = (Except.ok (Maybe.of (Held.val (TestVal.num 5))), ())) := by
  refine ⟨?_, rfl, rfl⟩
  cases hm : looseUndefined m._value with
  | true =>
    rw [Maybe.map_nullish m _ hm, Maybe.map_nullish m _ hm, effPure_bind,
      Maybe.map_nullish (Maybe.of Held.null) _ rfl]
  | false =>
    rw [Maybe.map_value m _ hm, Maybe.map_value m _ hm, effBind_assoc]
    simp only [callVal, composed, List.getD_cons_zero, effBind_assoc, effPure_bind]
    funext s
    simp only [effBind]
    rcases hc : f.call [m._value] s with ⟨r, s1⟩
    cases r with
    | error e => rfl
    | ok y =>
      have hy : looseUndefined (Maybe.of y)._value = false :=
        hf m._value s y hm (by rw [hc])
      have hg := Maybe.map_value (Maybe.of y) (JsVal.fn g) hy
      show (Maybe.of y).map (JsVal.fn g) s1 = _
      rw [hg]
      rfl

theorem maybe_map_composition_witness :
    (∀ (x : Held TestVal) (s : Unit) (y : Held TestVal), looseUndefined x = false →
        ((timesTwo : JsFn Unit Unit (Held TestVal)).call [x] s).1 = Except.ok y →
        looseUndefined y = false)
      ∧ effBind (Maybe.map (Maybe.of (Held.val (TestVal.num 2)))
            (JsVal.fn (timesTwo : JsFn Unit Unit (Held TestVal))))
          (fun m1 => Maybe.map m1 (JsVal.fn plusTwo))
        = Maybe.map (Maybe.of (Held.val (TestVal.num 2)))
            (JsVal.fn (composed timesTwo plusTwo)) :=
  ⟨fun _ _ _ _ h => by cases h; rfl,
   (maybe_map_composition (Maybe.of (Held.val (TestVal.num 2))) timesTwo plusTwo
      (fun _ _ _ _ h => by cases h; rfl)).1⟩

/-! ## throttle -/

theorem Throttle.executer_open {σ V : Type} (delay : Nat) (args : List V)
    (t : Throttle σ V) (hopen : t.isThrottling = false) (hp : t.host.pending = []) :
    Throttle.executer delay args t
      = { host := { now := t.host.now, nextId := t.host.nextId + 1,
                    pending := [{ id := t.host.nextId, due := t.host.now + delay,
                                  payload := args }] },
          isThrottling := true, timer := some t.host.nextId, world := t.world } := by
  simp [Throttle.executer, hopen, setTimeout, hp]

theorem Throttle.executer_closed {σ V : Type} (delay : Nat) (args : List V)
    (t : Throttle σ V) (hclosed : t.isThrottling = true) :
    Throttle.executer delay args t = t := by
  simp [Throttle.executer, hclosed]

theorem Throttle.elapse_none {σ E V : Type} (fn : JsFn σ E V) (dt : Nat)
    (t : Throttle σ V) (hp : t.host.pending = []) :
    Throttle.elapse fn dt t
      = { host := { now := t.host.now + dt, nextId := t.host.nextId, pending := [] },
          isThrottling := t.isThrottling, timer := t.timer, world := t.world } := by
  simp [Throttle.elapse, dueBy, hp]

theorem Throttle.elapse_early {σ E V : Type} (fn : JsFn σ E V) (dt : Nat)
    (t : Throttle σ V) (tm : Timer (List V)) (hp : t.host.pending = [tm])
    (hlt : t.host.now + dt < tm.due) :
    Throttle.elapse fn dt t
      = { host := { now := t.host.now + dt, nextId := t.host.nextId, pending := [tm] },
          isThrottling := t.isThrottling, timer := t.timer, world := t.world } := by
  have h1 : ¬ tm.due ≤ t.host.now + dt := by omega
  simp [Throttle.elapse, dueBy, hp, h1, hlt]

theorem Throttle.elapse_late {σ E V : Type} (fn : JsFn σ E V) (dt : Nat)
    (t : Throttle σ V) (tm : Timer (List V)) (hp : t.host.pending = [tm])
    (hle : tm.due ≤ t.host.now + dt) :
    Throttle.elapse fn dt t
      = Throttle.fire fn
          { host := { now := t.host.now + dt, nextId := t.host.nextId, pending := [] },
            isThrottling := t.isThrottling, timer := t.timer, world := t.world } tm := by
  simp [Throttle.elapse, dueBy, hp, hle, insertByDue]

theorem Throttle.run_concat {σ E V : Type} (fn : JsFn σ E V) (delay : Nat)
    (t : Throttle σ V) (es1 es2 : List (Event V)) :
    Throttle.run fn delay t (es1 ++ es2)
      = Throttle.run fn delay (Throttle.run fn delay t es1) es2 := by
  simp [Throttle.run, List.foldl_append]

theorem Throttle.run_cons {σ E V : Type} (fn : JsFn σ E V) (delay : Nat)
    (t : Throttle σ V) (e : Event V) (es : List (Event V)) :
    Throttle.run fn delay t (e :: es)
      = Throttle.run fn delay (Throttle.step fn delay t e) es := rfl

/-- What the callback leaves behind, whether `fn` returns or throws. -/
theorem Throttle.fire_facts {σ E V : Type} (fn : JsFn σ E V) (t : Throttle σ V)
    (tm : Timer (List V)) :
    (Throttle.fire fn t tm).host = t.host
      ∧ (Throttle.fire fn t tm).timer = t.timer
      ∧ (Throttle.fire fn t tm).world = (fn.call tm.payload t.world).2
      ∧ (∀ v, (fn.call tm.payload t.world).1 = Except.ok v →
          (Throttle.fire fn t tm).isThrottling = false) := by
  simp only [Throttle.fire]
  rcases fn.call tm.payload t.world with ⟨r, w⟩
  cases r with
  | ok v => exact ⟨rfl, rfl, rfl, fun _ _ => rfl⟩
  | error e => exact ⟨rfl, rfl, rfl, fun _ h => by cases h⟩

theorem Throttle.oneTimer_step {σ E V : Type} (fn : JsFn σ E V) (delay : Nat)
    (t : Throttle σ V) (e : Event V) (ht : Throttle.AtMostOne delay t) :
    Throttle.AtMostOne delay (Throttle.step fn delay t e) := by
  cases e with
  | call args =>
    simp only [Throttle.step]
    cases hflag : t.isThrottling with
    | true =>
      rw [Throttle.executer_closed delay args t hflag]
      exact ht
    | false =>
      rcases ht with hp | ⟨tm, _, hc, _⟩
      · rw [Throttle.executer_open delay args t hflag hp]
        exact Or.inr ⟨_, rfl, rfl, rfl, Nat.le_refl _⟩
      · rw [hflag] at hc
        cases hc
  | cancel =>
    left
    rcases ht with hp | ⟨tm, hp, _, htimer, _⟩
    · cases h : t.timer <;> simp [Throttle.step, Throttle.cancel, clearTimeout, h, hp]
    · simp [Throttle.step, Throttle.cancel, clearTimeout, htimer, hp]
  | elapse dt =>
    simp only [Throttle.step]
    rcases ht with hp | ⟨tm, hp, hc, htimer, hdue⟩
    · rw [Throttle.elapse_none fn dt t hp]
      exact Or.inl rfl
    · by_cases hd : tm.due ≤ t.host.now + dt
      · rw [Throttle.elapse_late fn dt t tm hp hd]
        left
        rw [(Throttle.fire_facts fn _ tm).1]
      · rw [Throttle.elapse_early fn dt t tm hp (by omega)]
        exact Or.inr ⟨tm, rfl, hc, htimer, by simp only; omega⟩

theorem Throttle.oneTimer_run {σ E V : Type} (fn : JsFn σ E V) (delay : Nat)
    (events : List (Event V)) (t : Throttle σ V) (ht : Throttle.AtMostOne delay t) :
    Throttle.AtMostOne delay (Throttle.run fn delay t events) := by
  induction events generalizing t with
  | nil => exact ht
  | cons e rest ih => exact ih _ (Throttle.oneTimer_step fn delay t e ht)

/-- An open instance that was reached from a fresh one has no timer armed. -/
theorem Throttle.open_idle {σ V : Type} (delay : Nat) (t : Throttle σ V)
    (ht : Throttle.AtMostOne delay t) (hopen : t.isThrottling = false) :
    t.host.pending = [] := by
  rcases ht with hp | ⟨tm, _, hc, _⟩
  · exact hp
  · rw [hopen] at hc
    cases hc

/-- C12, as the code has it: the first call made while a `throttle(fn, delay)` instance is
open (after any history) does not invoke `fn`: when the call returns the record and the
world are as before, the instance is throttling, and one timer is armed for the window,
holding the arguments of the call.  `fn` is invoked when that timer fires: not while
less than `delay` has passed, and exactly once, with the arguments of that call, once
`delay` has passed. -/
theorem throttle_first_call_defers {σ E V : Type} (f : JsFn σ E V) (delay : Nat)
    (now issued : Nat) (w0 : σ × List (List V)) (history : List (Event V))
    (args : List V) (q : Nat)
    (hopen : (Throttle.run (spy f) delay (throttle (Host.start now issued) w0)
      history).isThrottling = false) :
    (Throttle.run (spy f) delay (throttle (Host.start now issued) w0)
        (history ++ [Event.call args])).world
        = (Throttle.run (spy f) delay (throttle (Host.start now issued) w0) history).world
      ∧ (Throttle.run (spy f) delay (throttle (Host.start now issued) w0)
          (history ++ [Event.call args])).isThrottling = true
      ∧ (Throttle.run (spy f) delay (throttle (Host.start now issued) w0)
          (history ++ [Event.call args])).host.pending
        = [{ id := (Throttle.run (spy f) delay (throttle (Host.start now issued) w0)
                      history).host.nextId,
             due := (Throttle.run (spy f) delay (throttle (Host.start now issued) w0)
                      history).host.now + delay,
             payload := args }]
      ∧ (q < delay →
          (Throttle.run (spy f) delay (throttle (Host.start now issued) w0)
              (history ++ [Event.call args, Event.elapse q])).world
            = (Throttle.run (spy f) delay (throttle (Host.start now issued) w0)
                history).world)
      ∧ (delay ≤ q →
          (Throttle.run (spy f) delay (throttle (Host.start now issued) w0)
              (history ++ [Event.call args, Event.elapse q])).world
            = ((f.call args (Throttle.run (spy f) delay
                  (throttle (Host.start now issued) w0) history).world.1).2,
               (Throttle.run (spy f) delay
                  (throttle (Host.start now issued) w0) history).world.2 ++ [args])) := by
  have ht : Throttle.AtMostOne delay
      (Throttle.run (spy f) delay (throttle (Host.start now issued) w0) history) :=
    Throttle.oneTimer_run (spy f) delay history _ (Or.inl rfl)
  simp only [Throttle.run_concat]
  generalize Throttle.run (spy f) delay (throttle (Host.start now issued) w0) history
    = t at ht hopen
  have hp := Throttle.open_idle delay t ht hopen
  simp only [Throttle.run_cons, Throttle.step, Throttle.executer_open delay args t hopen hp]
  refine ⟨rfl, rfl, rfl, ?_, ?_⟩
  · intro hq
    rw [Throttle.elapse_early (spy f) q _ _ rfl (by simp only; omega)]
    rfl
  · intro hq
    rw [Throttle.elapse_late (spy f) q _ _ rfl (by simp only; omega)]
    exact (Throttle.fire_facts (spy f) _ _).2.2.1

theorem throttle_first_call_defers_witness :
    (Throttle.run (spy (add2 : JsFn Unit Unit TestVal)) 500
        (throttle (Host.start 0 0) ((), [])) []).isThrottling = false
      ∧ (Throttle.run (spy (add2 : JsFn Unit Unit TestVal)) 500
          (throttle (Host.start 0 0) ((), []))
          ([] ++ [Event.call [TestVal.num 1, TestVal.num 2], Event.elapse 499])).world
        = ((), [])
      ∧ (Throttle.run (spy (add2 : JsFn Unit Unit TestVal)) 500
          (throttle (Host.start 0 0) ((), []))
          ([] ++ [Event.call [TestVal.num 1, TestVal.num 2], Event.elapse 500])).world
        = ((), [[TestVal.num 1, TestVal.num 2]]) :=
  ⟨rfl,
   (throttle_first_call_defers add2 500 0 0 ((), []) []
      [TestVal.num 1, TestVal.num 2] 499 rfl).2.2.2.1 (by decide),
   (throttle_first_call_defers add2 500 0 0 ((), []) []
      [TestVal.num 1, TestVal.num 2] 500 rfl).2.2.2.2 (by decide)⟩

/-- C12 as stated fails: when the first call on a fresh `throttle(fn, 500)` instance
returns, the recording `fn` has not been invoked at all; its record is empty, not the
one invocation the claim asks for. -/
theorem throttle_first_call_is_not_immediate :
    (Throttle.run (spy (add2 : JsFn Unit Unit TestVal)) 500
        (throttle (Host.start 0 0) ((), []))
        [Event.call [TestVal.num 1, TestVal.num 2]]).world.2 = []
      ∧ (Throttle.run (spy (add2 : JsFn Unit Unit TestVal)) 500
          (throttle (Host.start 0 0) ((), []))
          [Event.call [TestVal.num 1, TestVal.num 2]]).world.2
        ≠ [[TestVal.num 1, TestVal.num 2]] :=
  ⟨rfl, by decide⟩

/-- Once all timers have run, the record holds the arguments of the armed timer and of
the calls that arrived while the instance was open, whatever `fn` does. -/
theorem Throttle.count_open {σ E V : Type} (f : JsFn σ E V) (delay q : Nat)
    (hq : delay ≤ q) (events : List (Event V)) (hnc : ∀ e ∈ events, e ≠ Event.cancel)
    (t : Throttle (σ × List (List V)) V) (ht : Throttle.AtMostOne delay t) :
    (Throttle.run (spy f) delay t (events ++ [Event.elapse q])).world.2
      = t.world.2 ++ t.host.pending.map (fun tm => tm.payload)
          ++ Throttle.arrivedOpen (spy f) delay t events := by
  induction events generalizing t with
  | nil =>
    simp only [List.nil_append, Throttle.run_cons, Throttle.step, Throttle.arrivedOpen,
      List.append_nil]
    rcases ht with hp | ⟨tm, hp, _, _, hdue⟩
    · rw [Throttle.elapse_none (spy f) q t hp, hp]
      simp [Throttle.run]
    · rw [Throttle.elapse_late (spy f) q t tm hp (by omega), hp]
      simp only [Throttle.run, List.foldl_nil, (Throttle.fire_facts (spy f) _ tm).2.2.1]
      rfl
  | cons e rest ih =>
    have hrest : ∀ x ∈ rest, x ≠ Event.cancel :=
      fun x hx => hnc x (List.mem_cons_of_mem _ hx)
    have hstep := Throttle.oneTimer_step (spy f) delay t e ht
    rw [List.cons_append, Throttle.run_cons, ih hrest _ hstep]
    cases e with
    | cancel => exact absurd rfl (hnc _ (List.mem_cons_self _ _))
    | call args =>
      simp only [Throttle.step, Throttle.arrivedOpen]
      cases hflag : t.isThrottling with
      | true =>
        rw [Throttle.executer_closed delay args t hflag]
        simp
      | false =>
        have hp := Throttle.open_idle delay t ht hflag
        rw [Throttle.executer_open delay args t hflag hp, hp]
        simp
    | elapse dt =>
      simp only [Throttle.step, Throttle.arrivedOpen]
      rcases ht with hp | ⟨tm, hp, _, _, _⟩
      · rw [Throttle.elapse_none (spy f) dt t hp, hp]
      · by_cases hd : tm.due ≤ t.host.now + dt
        · rw [Throttle.elapse_late (spy f) dt t tm hp hd, hp,
            (Throttle.fire_facts (spy f) _ tm).2.2.1, (Throttle.fire_facts (spy f) _ tm).1]
          simp [spy]
        · rw [Throttle.elapse_early (spy f) dt t tm hp (by omega), hp]

theorem Throttle.fire_ok {σ E V : Type} (fn : JsFn σ E V) (t : Throttle σ V)
    (tm : Timer (List V)) (v : V) (hv : (fn.call tm.payload t.world).1 = Except.ok v) :
    Throttle.fire fn t tm
      = { host := t.host, isThrottling := false, timer := t.timer,
          world := (fn.call tm.payload t.world).2 } := by
  simp only [Throttle.fire]
  rcases hc : fn.call tm.payload t.world with ⟨r, w⟩
  rw [hc] at hv
  simp only at hv
  subst hv
  rfl

/-- A pause and then a call, on an open instance. -/
theorem Throttle.pause_call_open {σ E V : Type} (fn : JsFn σ E V) (delay gap : Nat)
    (args : List V) (t : Throttle σ V) (hflag : t.isThrottling = false)
    (hp : t.host.pending = []) :
    Throttle.executer delay args (Throttle.elapse fn gap t)
      = { host := { now := t.host.now + gap, nextId := t.host.nextId + 1,
                    pending := [{ id := t.host.nextId, due := t.host.now + gap + delay,
                                  payload := args }] },
          isThrottling := true, timer := some t.host.nextId, world := t.world } := by
  rcases t with ⟨⟨now, nextId, pending⟩, flag, timer, world⟩
  simp only at hp hflag
  subst hp
  subst hflag
  simp [Throttle.elapse, dueBy, Throttle.executer, setTimeout]

/-- A pause that outlasts the window and then a call: the timer fires, then the call is
accepted. -/
theorem Throttle.pause_call_fired {σ E V : Type} (fn : JsFn σ E V) (delay gap : Nat)
    (args : List V) (t : Throttle σ V) (tm : Timer (List V)) (v : V)
    (hp : t.host.pending = [tm]) (hdue : tm.due ≤ t.host.now + gap)
    (hv : (fn.call tm.payload t.world).1 = Except.ok v) :
    Throttle.executer delay args (Throttle.elapse fn gap t)
      = { host := { now := t.host.now + gap, nextId := t.host.nextId + 1,
                    pending := [{ id := t.host.nextId, due := t.host.now + gap + delay,
                                  payload := args }] },
          isThrottling := true, timer := some t.host.nextId,
          world := (fn.call tm.payload t.world).2 } := by
  rcases t with ⟨⟨now, nextId, pending⟩, flag, timer, world⟩
  simp only at hp hdue hv
  subst hp
  rcases hc : fn.call tm.payload world with ⟨r, w⟩
  rw [hc] at hv
  simp only at hv
  subst hv
  simp [Throttle.elapse, dueBy, hdue, insertByDue, Throttle.fire, hc, Throttle.executer,
    setTimeout]

/-- A pause within the window and then a call: nothing fires and the call is dropped. -/
theorem Throttle.pause_call_closed {σ E V : Type} (fn : JsFn σ E V) (delay gap : Nat)
    (args : List V) (t : Throttle σ V) (tm : Timer (List V))
    (hp : t.host.pending = [tm]) (hflag : t.isThrottling = true)
    (hwait : t.host.now + gap < tm.due) :
    Throttle.executer delay args (Throttle.elapse fn gap t)
      = { host := { now := t.host.now + gap, nextId := t.host.nextId, pending := [tm] },
          isThrottling := t.isThrottling, timer := t.timer, world := t.world } := by
  rcases t with ⟨⟨now, nextId, pending⟩, flag, timer, world⟩
  simp only at hp hflag hwait
  subst hp
  subst hflag
  have h1 : ¬ tm.due ≤ now + gap := by omega
  simp [Throttle.elapse, dueBy, h1, hwait, Throttle.executer]

/-- Once all timers have run after a timed sequence of calls, the record holds the
arguments of the calls the clock accepts, when `fn` returns normally. -/
theorem Throttle.count_clock {σ E V : Type} (f : JsFn σ E V)
    (hret : ∀ args s, ∃ v, (f.call args s).1 = Except.ok v) (delay q : Nat)
    (hq : delay ≤ q) (calls : List (Nat × List V))
    (t : Throttle (σ × List (List V)) V) (st : Option Nat)
    (hst : (st = none ∧ t.isThrottling = false ∧ t.host.pending = [])
      ∨ ∃ e tm, st = some e ∧ t.host.pending = [tm] ∧ t.isThrottling = true
          ∧ tm.due + e = t.host.now + delay) :
    (Throttle.run (spy f) delay t (timed calls ++ [Event.elapse q])).world.2
        = t.world.2 ++ t.host.pending.map (fun tm => tm.payload)
            ++ acceptedArgs delay st calls
      ∧ (Throttle.run (spy f) delay t (timed calls ++ [Event.elapse q])).isThrottling
        = false := by
  have hspy : ∀ (args : List V) (w : σ × List (List V)),
      ∃ v, ((spy f).call args w).1 = Except.ok v := fun args w => hret args w.1
  induction calls generalizing t st with
  | nil =>
    have h0 : timed ([] : List (Nat × List V)) ++ [Event.elapse q] = [Event.elapse q] := rfl
    rw [h0, Throttle.run_cons]
    simp only [Throttle.step, acceptedArgs, List.append_nil]
    rcases hst with ⟨_, hflag, hp⟩ | ⟨e, tm, _, hp, _, hdue⟩
    · rw [Throttle.elapse_none (spy f) q t hp, hp]
      exact ⟨by simp [Throttle.run], hflag⟩
    · obtain ⟨v, hv⟩ := hspy tm.payload t.world
      have hf := Throttle.fire_facts (spy f)
        { host := { now := t.host.now + q, nextId := t.host.nextId, pending := [] },
          isThrottling := t.isThrottling, timer := t.timer, world := t.world } tm
      rw [Throttle.elapse_late (spy f) q t tm hp (by omega), hp]
      exact ⟨by simp only [Throttle.run, List.foldl_nil]; rw [hf.2.2.1]; rfl,
        hf.2.2.2 v hv⟩
  | cons c rest ih =>
    have htimed : timed (c :: rest) ++ [Event.elapse q]
        = Event.elapse c.1 :: Event.call c.2 :: (timed rest ++ [Event.elapse q]) := by
      simp [timed, List.flatMap_cons]
    rw [htimed, Throttle.run_cons, Throttle.run_cons]
    simp only [Throttle.step]
    rcases hst with ⟨hs, hflag, hp⟩ | ⟨e, tm, hs, hp, hflag, hdue⟩
    · subst hs
      rw [Throttle.pause_call_open (spy f) delay c.1 c.2 t hflag hp]
      refine ⟨(ih _ (some 0) ?_).1.trans ?_, (ih _ (some 0) ?_).2⟩
      · exact Or.inr ⟨0, _, rfl, rfl, rfl, rfl⟩
      · simp [acceptedArgs, hp]
      · exact Or.inr ⟨0, _, rfl, rfl, rfl, rfl⟩
    · subst hs
      by_cases hd : delay ≤ e + c.1
      · obtain ⟨v, hv⟩ := hspy tm.payload t.world
        rw [Throttle.pause_call_fired (spy f) delay c.1 c.2 t tm v hp (by omega) hv]
        refine ⟨(ih _ (some 0) ?_).1.trans ?_, (ih _ (some 0) ?_).2⟩
        · exact Or.inr ⟨0, _, rfl, rfl, rfl, rfl⟩
        · simp [acceptedArgs, hd, hp, spy]
        · exact Or.inr ⟨0, _, rfl, rfl, rfl, rfl⟩
      · rw [Throttle.pause_call_closed (spy f) delay c.1 c.2 t tm hp hflag (by omega)]
        refine ⟨(ih _ (some (e + c.1)) ?_).1.trans ?_, (ih _ (some (e + c.1)) ?_).2⟩
        · exact Or.inr ⟨e + c.1, tm, rfl, rfl, hflag, by simp only; omega⟩
        · simp [acceptedArgs, hd, hp]
        · exact Or.inr ⟨e + c.1, tm, rfl, rfl, hflag, by simp only; omega⟩

/-- C13, as the code has it: on a `throttle(fn, delay)` instance with no `cancel`, a call
made while the instance is throttling changes nothing at all (no invocation now or
later, its arguments are kept nowhere); a fresh instance is open; and once all timers
have run the record of the recording `fn` holds exactly the arguments of the calls that
arrived while the instance was open, one invocation each, in order, for every `fn`.
For an `fn` that returns normally the instance re-opens as the window timer fires, so
the calls that arrive while open are those the clock accepts (the first, and every call
coming at least `delay` after the last accepted one), the instance is open at the end,
and calls at 0, 200, 400 and 600 ms with a 500 ms window give exactly two invocations,
those of the first and the last call. -/
theorem throttle_drops_while_closed {σ E V : Type} (f : JsFn σ E V) (delay : Nat)
    (now issued : Nat) (w0 : σ × List (List V)) (events : List (Event V))
    (calls : List (Nat × List V)) (q : Nat) (hq : delay ≤ q)
    (hnc : ∀ e ∈ events, e ≠ Event.cancel) :
    (∀ (t : Throttle (σ × List (List V)) V) (args : List V), t.isThrottling = true →
        Throttle.step (spy f) delay t (Event.call args) = t)
      ∧ (throttle (Host.start now issued) w0 : Throttle (σ × List (List V)) V).isThrottling
        = false
      ∧ (Throttle.run (spy f) delay (throttle (Host.start now issued) w0)
          (events ++ [Event.elapse q])).world.2
        = w0.2 ++ Throttle.arrivedOpen (spy f) delay
            (throttle (Host.start now issued) w0) events
      ∧ ((∀ args s, ∃ v, (f.call args s).1 = Except.ok v) →
          Throttle.arrivedOpen (spy f) delay (throttle (Host.start now issued) w0)
              (timed calls)
            = acceptedArgs delay none calls
          ∧ (Throttle.run (spy f) delay (throttle (Host.start now issued) w0)
              (timed calls ++ [Event.elapse q])).world.2
            = w0.2 ++ acceptedArgs delay none calls
          ∧ (Throttle.run (spy f) delay (throttle (Host.start now issued) w0)
              (timed calls ++ [Event.elapse q])).isThrottling = false
          ∧ (∀ a b c d : List V,
              (Throttle.run (spy f) 500 (throttle (Host.start now issued) w0)
                  (timed [(0, a), (200, b), (200, c), (200, d)]
                    ++ [Event.elapse 500])).world.2
                = w0.2 ++ [a, d]))
      ∧ (Throttle.run (spy (add2 : JsFn Unit Unit TestVal)) 500
          (throttle (Host.start 0 0) ((), []))
          (timed [(0, [TestVal.num 1]), (200, [TestVal.num 2]), (200, [TestVal.num 3]),
                  (200, [TestVal.num 4])] ++ [Event.elapse 500])).world.2
        = [[TestVal.num 1], [TestVal.num 4]] := by
  have hopen := Throttle.count_open f delay q hq events hnc
    (throttle (Host.start now issued) w0) (Or.inl rfl)
  refine ⟨?_, rfl, ?_, ?_, by decide⟩
  · intro t args ht
    exact Throttle.executer_closed delay args t ht
  · rw [hopen]
    simp [throttle, Host.start]
  · intro hret
    have hclock := Throttle.count_clock f hret delay q hq calls
      (throttle (Host.start now issued) w0) none (Or.inl ⟨rfl, rfl, rfl⟩)
    have htimed : ∀ e ∈ timed calls, e ≠ Event.cancel := by
      intro e he
      simp only [timed, List.mem_flatMap] at he
      obtain ⟨c, _, hc⟩ := he
      intro h
      subst h
      simp at hc
    have hopen2 := Throttle.count_open f delay q hq (timed calls) htimed
      (throttle (Host.start now issued) w0) (Or.inl rfl)
    refine ⟨?_, ?_, hclock.2, ?_⟩
    · have h := hopen2.symm.trans hclock.1
      simp only [throttle, Host.start, List.map_nil, List.append_nil] at h
      exact List.append_cancel_left h
    · rw [hclock.1]
      simp [throttle, Host.start]
    · intro a b c d
      have hex := Throttle.count_clock f hret 500 500 (Nat.le_refl _)
        [(0, a), (200, b), (200, c), (200, d)]
        (throttle (Host.start now issued) w0) none (Or.inl ⟨rfl, rfl, rfl⟩)
      rw [hex.1]
      simp [throttle, Host.start, acceptedArgs]

theorem throttle_drops_while_closed_witness :
    (500 ≤ 500)
      ∧ (∀ e ∈ [Event.call [TestVal.num 1], Event.elapse 100, Event.call [TestVal.num 2]],
          e ≠ Event.cancel)
      ∧ (∀ args s, ∃ v, ((add2 : JsFn Unit Unit TestVal).call args s).1 = Except.ok v)
      ∧ (Throttle.run (spy (add2 : JsFn Unit Unit TestVal)) 500
          (throttle (Host.start 0 0) ((), []))
          ([Event.call [TestVal.num 1], Event.elapse 100, Event.call [TestVal.num 2]]
            ++ [Event.elapse 500])).world.2
        = [] ++ Throttle.arrivedOpen (spy (add2 : JsFn Unit Unit TestVal)) 500
            (throttle (Host.start 0 0) ((), []))
            [Event.call [TestVal.num 1], Event.elapse 100, Event.call [TestVal.num 2]]
      ∧ (Throttle.run (spy (add2 : JsFn Unit Unit TestVal)) 500
          (throttle (Host.start 0 0) ((), []))
          (timed [(0, [TestVal.num 1]), (499, [TestVal.num 2]), (1, [TestVal.num 3])]
            ++ [Event.elapse 500])).isThrottling = false :=
  ⟨by decide,
   by
    intro e he h
    subst h
    simp at he,
   fun _ _ => ⟨_, rfl⟩,
   (throttle_drops_while_closed add2 500 0 0 ((), [])
      [Event.call [TestVal.num 1], Event.elapse 100, Event.call [TestVal.num 2]]
      [(0, [TestVal.num 1]), (499, [TestVal.num 2]), (1, [TestVal.num 3])] 500
      (by decide)
      (by
        intro e he h
        subst h
        simp at he)).2.2.1,
   ((throttle_drops_while_closed add2 500 0 0 ((), [])
      [Event.call [TestVal.num 1], Event.elapse 100, Event.call [TestVal.num 2]]
      [(0, [TestVal.num 1]), (499, [TestVal.num 2]), (1, [TestVal.num 3])] 500
      (by decide)
      (by
        intro e he h
        subst h
        simp at he)).2.2.2.1 (fun _ _ => ⟨_, rfl⟩)).2.2.1⟩

/-- C13 as stated fails for an `fn` that throws: the callback stops at the throw, before
`isThrottling = false`, so the instance does not re-open when the window timer fires.
With calls at 0, 200, 400 and 600 ms and a 500 ms window the instance is still
throttling after the timer of the first call has fired, the call at 600 ms is dropped,
and once all timers have run there is one invocation, not two. -/
theorem throttle_stays_closed_when_fn_throws :
    (Throttle.run (spy (alwaysThrows : JsFn Unit Unit TestVal)) 500
        (throttle (Host.start 0 0) ((), []))
        [Event.call [TestVal.num 1], Event.elapse 500]).world.2 = [[TestVal.num 1]]
      ∧ (Throttle.run (spy (alwaysThrows : JsFn Unit Unit TestVal)) 500
          (throttle (Host.start 0 0) ((), []))
          [Event.call [TestVal.num 1], Event.elapse 500]).isThrottling = true
      ∧ (Throttle.run (spy (alwaysThrows : JsFn Unit Unit TestVal)) 500
          (throttle (Host.start 0 0) ((), []))
          (timed [(0, [TestVal.num 1]), (200, [TestVal.num 2]), (200, [TestVal.num 3]),
                  (200, [TestVal.num 4])] ++ [Event.elapse 500])).world.2
        = [[TestVal.num 1]]
      ∧ (Throttle.run (spy (alwaysThrows : JsFn Unit Unit TestVal)) 500
          (throttle (Host.start 0 0) ((), []))
          (timed [(0, [TestVal.num 1]), (200, [TestVal.num 2]), (200, [TestVal.num 3]),
                  (200, [TestVal.num 4])] ++ [Event.elapse 500])).isThrottling = true :=
  ⟨by decide, by decide, by decide, by decide⟩

/-! ## throttle: cancellation -/

/-- While the window timer has not fired, a throttling instance stays as it is. -/
theorem Throttle.run_waiting {σ E V : Type} (fn : JsFn σ E V) (delay : Nat)
    (mid : List (Event V)) (t : Throttle σ V) (hflag : t.isThrottling = true)
    (hp : t.host.pending = []
      ∨ ∃ tm, t.host.pending = [tm] ∧ t.timer = some tm.id
          ∧ t.host.now + elapsed mid < tm.due) :
    (Throttle.run fn delay t mid).world = t.world
      ∧ (Throttle.run fn delay t mid).isThrottling = true
      ∧ ((Throttle.run fn delay t mid).host.pending = []
        ∨ ∃ tm, (Throttle.run fn delay t mid).host.pending = [tm]
            ∧ (Throttle.run fn delay t mid).timer = some tm.id) := by
  induction mid generalizing t with
  | nil =>
    refine ⟨rfl, hflag, ?_⟩
    rcases hp with h | ⟨tm, h, ht, _⟩
    · exact Or.inl h
    · exact Or.inr ⟨tm, h, ht⟩
  | cons e rest ih =>
    rw [Throttle.run_cons]
    cases e with
    | call args =>
      simp only [Throttle.step, Throttle.executer_closed delay args t hflag]
      exact ih t hflag hp
    | cancel =>
      have hc : (Throttle.cancel t).host.pending = [] := by
        rcases hp with h | ⟨tm, h, ht, _⟩
        · cases hh : t.timer <;> simp [Throttle.cancel, clearTimeout, hh, h]
        · simp [Throttle.cancel, clearTimeout, ht, h]
      exact ih (Throttle.cancel t) hflag (Or.inl hc)
    | elapse dt =>
      simp only [Throttle.step]
      rcases hp with h | ⟨tm, h, ht, hlt⟩
      · rw [Throttle.elapse_none fn dt t h]
        exact ih _ hflag (Or.inl rfl)
      · simp only [elapsed] at hlt
        rw [Throttle.elapse_early fn dt t tm h (by omega)]
        exact ih _ hflag (Or.inr ⟨tm, rfl, ht, by simp only; omega⟩)

/-- A throttling instance with no timer armed stays so, whatever happens. -/
theorem Throttle.run_stuck {σ E V : Type} (fn : JsFn σ E V) (delay : Nat)
    (later : List (Event V)) (t : Throttle σ V) (hflag : t.isThrottling = true)
    (hp : t.host.pending = []) :
    (Throttle.run fn delay t later).world = t.world
      ∧ (Throttle.run fn delay t later).isThrottling = true
      ∧ (Throttle.run fn delay t later).host.pending = [] := by
  induction later generalizing t with
  | nil => exact ⟨rfl, hflag, hp⟩
  | cons e rest ih =>
    rw [Throttle.run_cons]
    cases e with
    | call args =>
      simp only [Throttle.step, Throttle.executer_closed delay args t hflag]
      exact ih t hflag hp
    | cancel =>
      have hc : (Throttle.cancel t).host.pending = [] := by
        cases hh : t.timer <;> simp [Throttle.cancel, clearTimeout, hh, hp]
      exact ih (Throttle.cancel t) hflag hc
    | elapse dt =>
      simp only [Throttle.step]
      rw [Throttle.elapse_none fn dt t hp]
      exact ih _ hflag rfl

/-- C14: on a `throttle(fn, delay)` instance that is open (after any history), let a call
be accepted and let `cancel` be called before the window timer fires (less than `delay`
having passed, whatever other calls or cancellations come in between).  Then the
recording `fn` is never invoked afterwards, not even for the accepted call: whatever
events follow, record and world stay as they were, no timer is armed, and the instance
is still throttling, so every later call is dropped.  Example: two calls, `cancel`, then
any wait give no invocation. -/
theorem throttle_cancel_closes_for_good {σ E V : Type} (f : JsFn σ E V) (delay : Nat)
    (now issued : Nat) (w0 : σ × List (List V)) (history mid later : List (Event V))
    (args : List V)
    (hopen : (Throttle.run (spy f) delay (throttle (Host.start now issued) w0)
      history).isThrottling = false)
    (hmid : elapsed mid < delay) :
    (Throttle.run (spy f) delay (throttle (Host.start now issued) w0)
        (history ++ Event.call args :: mid ++ Event.cancel :: later)).world
        = (Throttle.run (spy f) delay (throttle (Host.start now issued) w0) history).world
      ∧ (Throttle.run (spy f) delay (throttle (Host.start now issued) w0)
          (history ++ Event.call args :: mid ++ Event.cancel :: later)).isThrottling = true
      ∧ (Throttle.run (spy f) delay (throttle (Host.start now issued) w0)
          (history ++ Event.call args :: mid ++ Event.cancel :: later)).host.pending = []
      ∧ (∀ (later2 : List (Event V)) (args2 : List V),
          Throttle.step (spy f) delay
              (Throttle.run (spy f) delay (throttle (Host.start now issued) w0)
                (history ++ Event.call args :: mid ++ Event.cancel :: later2))
              (Event.call args2)
            = Throttle.run (spy f) delay (throttle (Host.start now issued) w0)
                (history ++ Event.call args :: mid ++ Event.cancel :: later2))
      ∧ (∀ wait : Nat,
          (Throttle.run (spy (add2 : JsFn Unit Unit TestVal)) 500
              (throttle (Host.start 0 0) ((), []))
              [Event.call [], Event.call [], Event.cancel, Event.elapse wait]).world
            = ((), [])) := by
  have ht : Throttle.AtMostOne delay
      (Throttle.run (spy f) delay (throttle (Host.start now issued) w0) history) :=
    Throttle.oneTimer_run (spy f) delay history _ (Or.inl rfl)
  have hall : ∀ later1 : List (Event V),
      (Throttle.run (spy f) delay (throttle (Host.start now issued) w0)
          (history ++ Event.call args :: mid ++ Event.cancel :: later1)).world
          = (Throttle.run (spy f) delay (throttle (Host.start now issued) w0) history).world
        ∧ (Throttle.run (spy f) delay (throttle (Host.start now issued) w0)
            (history ++ Event.call args :: mid ++ Event.cancel :: later1)).isThrottling = true
        ∧ (Throttle.run (spy f) delay (throttle (Host.start now issued) w0)
            (history ++ Event.call args :: mid ++ Event.cancel :: later1)).host.pending
          = [] := by
    intro later1
    simp only [Throttle.run_concat, Throttle.run_cons]
    generalize Throttle.run (spy f) delay (throttle (Host.start now issued) w0) history
      = t at ht hopen
    have hp := Throttle.open_idle delay t ht hopen
    simp only [Throttle.step, Throttle.executer_open delay args t hopen hp]
    have hw := Throttle.run_waiting (spy f) delay mid
      { host := { now := t.host.now, nextId := t.host.nextId + 1,
                  pending := [{ id := t.host.nextId, due := t.host.now + delay,
                                payload := args }] },
        isThrottling := true, timer := some t.host.nextId, world := t.world }
      rfl (Or.inr ⟨_, rfl, rfl, by simp only; omega⟩)
    generalize Throttle.run (spy f) delay
      { host := { now := t.host.now, nextId := t.host.nextId + 1,
                  pending := [{ id := t.host.nextId, due := t.host.now + delay,
                                payload := args }] },
        isThrottling := true, timer := some t.host.nextId, world := t.world } mid = u at hw
    obtain ⟨hw1, hw2, hw3⟩ := hw
    have hc : (Throttle.cancel u).host.pending = [] := by
      rcases hw3 with h | ⟨tm, h, htm⟩
      · cases hh : u.timer <;> simp [Throttle.cancel, clearTimeout, hh, h]
      · simp [Throttle.cancel, clearTimeout, htm, h]
    have hs := Throttle.run_stuck (spy f) delay later1 (Throttle.cancel u) hw2 hc
    exact ⟨hs.1.trans hw1, hs.2.1, hs.2.2⟩
  refine ⟨(hall later).1, (hall later).2.1, (hall later).2.2, ?_, ?_⟩
  · intro later2 args2
    exact Throttle.executer_closed delay args2 _ (hall later2).2.1
  · intro wait
    exact (Throttle.run_stuck (spy (add2 : JsFn Unit Unit TestVal)) 500 [Event.elapse wait]
      (Throttle.run (spy add2) 500 (throttle (Host.start 0 0) ((), []))
        [Event.call [], Event.call [], Event.cancel]) rfl rfl).1

theorem throttle_cancel_closes_for_good_witness :
    (Throttle.run (spy (add2 : JsFn Unit Unit TestVal)) 500
        (throttle (Host.start 0 0) ((), [])) []).isThrottling = false
      ∧ elapsed [Event.call [TestVal.num 2], (Event.elapse 499 : Event TestVal)] < 500
      ∧ (Throttle.run (spy (add2 : JsFn Unit Unit TestVal)) 500
          (throttle (Host.start 0 0) ((), []))
          ([] ++ Event.call [TestVal.num 1]
            :: [Event.call [TestVal.num 2], Event.elapse 499]
            ++ Event.cancel
            :: [Event.elapse 5000, Event.call [TestVal.num 3], Event.elapse 5000])).world
        = ((), []) :=
  ⟨rfl, by decide,
   (throttle_cancel_closes_for_good add2 500 0 0 ((), []) []
      [Event.call [TestVal.num 2], Event.elapse 499]
      [Event.elapse 5000, Event.call [TestVal.num 3], Event.elapse 5000]
      [TestVal.num 1] rfl (by decide)).1⟩

end FunctionalJs
